import Mathlib

/-!
Verification of the tic-tac-toe engine and AI layer.

The development shallowly embeds the Python sources:
  game_logic.py  (TicTacToeGame, NoDrawGame)
  ai_easy.py, ai_medium.py, ai_hard.py
Boards are lists of cells; the stateful Python methods become explicit
state-passing functions; `random.choice` is modelled by an injected
selector argument (`pick`), as a seedable random source; the in-place
board mutation of the hard AI is modelled by threading the board value
through the recursion and returning the final board alongside the result.
-/

namespace TicTacToe

inductive Player where
  | X : Player
  | O : Player
deriving DecidableEq, Repr

abbrev Cell := Option Player

/-- A board is the Python 9-element list of cells; cells hold None, X or O. -/
abbrev Board := List Cell

/-- board[i] -/
def cellAt (b : Board) (i : Nat) : Cell := b.getD i none

/-- The WINNING_COMBINATIONS constant (3 rows, 3 columns, 2 diagonals). -/
def WINNING_COMBINATIONS : List (Nat × Nat × Nat) :=
  [(0,1,2), (3,4,5), (6,7,8),
   (0,3,6), (1,4,7), (2,5,8),
   (0,4,8), (2,4,6)]

/-- ai_hard.check_winner / TicTacToeGame.check_winner: some line is all `player`. -/
def check_winner (b : Board) (p : Player) : Bool :=
  WINNING_COMBINATIONS.any (fun c =>
    cellAt b c.1 == some p && cellAt b c.2.1 == some p && cellAt b c.2.2 == some p)

/-- ai_hard.is_board_full: no cell is None. -/
def is_board_full (b : Board) : Bool := b.all (fun c => c.isSome)

/-- [i for i in range(9) if board[i] is None] -/
def emptyCells (b : Board) : List Nat :=
  (List.range 9).filter (fun i => cellAt b i == none)

def switch : Player → Player
  | Player.X => Player.O
  | Player.O => Player.X

/-! ## Standard engine: TicTacToeGame -/

structure Game where
  board : Board
  current_player : Player
  game_over : Bool
  winner : Option Player
deriving DecidableEq, Repr

/-- TicTacToeGame.reset (also the state built by __init__). -/
def Game.reset : Game :=
  { board := List.replicate 9 none
    current_player := Player.X
    game_over := false
    winner := none }

/-- TicTacToeGame.is_valid_move: in bounds, empty cell, game not over.
Positions are Python ints, so the argument is an integer. -/
def Game.is_valid_move (g : Game) (position : Int) : Bool :=
  !g.game_over && decide (0 ≤ position) && decide (position ≤ 8) &&
    cellAt g.board position.toNat == none

/-- TicTacToeGame.make_move: returns the Python bool result paired with the
state after the call. -/
def Game.make_move (g : Game) (position : Int) : Bool × Game :=
  if !g.is_valid_move position then (false, g)
  else
    let b := g.board.set position.toNat (some g.current_player)
    if check_winner b g.current_player then
      (true, { g with board := b, game_over := true, winner := some g.current_player })
    else if is_board_full b then
      (true, { g with board := b, game_over := true, winner := none })
    else
      (true, { g with board := b, current_player := switch g.current_player })

/-! ## No-Draw engine: NoDrawGame -/

def MAX_MARKS : Nat := 3

structure NDGame where
  board : Board
  current_player : Player
  game_over : Bool
  winner : Option Player
  x_moves : List Nat
  o_moves : List Nat
deriving DecidableEq, Repr

/-- NoDrawGame.reset (also the state built by __init__). -/
def NDGame.reset : NDGame :=
  { board := List.replicate 9 none
    current_player := Player.X
    game_over := false
    winner := none
    x_moves := []
    o_moves := [] }

/-- NoDrawGame._get_player_moves. -/
def NDGame.playerMoves (g : NDGame) (p : Player) : List Nat :=
  match p with
  | Player.X => g.x_moves
  | Player.O => g.o_moves

/-- NoDrawGame.get_oldest_mark. -/
def NDGame.get_oldest_mark (g : NDGame) (p : Player) : Option Nat :=
  let moves := g.playerMoves p
  if moves.length ≥ MAX_MARKS then moves.head? else none

/-- NoDrawGame.is_valid_move. -/
def NDGame.is_valid_move (g : NDGame) (position : Int) : Bool :=
  if g.game_over || !(decide (0 ≤ position) && decide (position ≤ 8)) then false
  else
    match cellAt g.board position.toNat with
    | none => true
    | some p =>
      if p ≠ g.current_player then false
      else
        let moves := g.playerMoves g.current_player
        decide (moves.length ≥ MAX_MARKS) && moves.head? == some position.toNat

/-- Write back a player's history. -/
def NDGame.setPlayerMoves (g : NDGame) (p : Player) (m : List Nat) : NDGame :=
  match p with
  | Player.X => { g with x_moves := m }
  | Player.O => { g with o_moves := m }

/-- The eviction-and-placement core of NoDrawGame.make_move (lines 164-172):
remove the oldest mark when the mover already has MAX_MARKS, place the new
mark, append the position to the history. -/
def evictPlace (b : Board) (p : Player) (pos : Nat) (moves : List Nat) :
    Board × List Nat :=
  if moves.length ≥ MAX_MARKS then
    match moves with
    | m0 :: rest => ((b.set m0 none).set pos (some p), rest ++ [pos])
    | [] => (b.set pos (some p), moves ++ [pos])
  else (b.set pos (some p), moves ++ [pos])

/-- NoDrawGame.make_move: evict the oldest mark when at capacity (FIFO),
place the new mark, append to the history, then check for a winner. -/
def NDGame.make_move (g : NDGame) (position : Int) : Bool × NDGame :=
  if !g.is_valid_move position then (false, g)
  else
    let player := g.current_player
    let bm := evictPlace g.board player position.toNat (g.playerMoves player)
    let g1 := g.setPlayerMoves player bm.2
    if check_winner bm.1 player then
      (true, { g1 with board := bm.1, game_over := true, winner := some player })
    else
      (true, { g1 with board := bm.1, current_player := switch player })

/-- NoDrawGame.is_board_full: always False (no draws in this variant). -/
def NDGame.is_board_full (_ : NDGame) : Bool := false

/-! ## Random choice model

`random.choice(lst)` returns an element of `lst`; we model the randomness
by an injected selector `pick`, reduced modulo the list length. -/

def random_choice (pick : Nat) (l : List Nat) : Option Nat :=
  l.get? (pick % l.length)

/-! ## Easy AI (ai_easy.py) -/

def get_easy_move (pick : Nat) (b : Board) : Option Nat :=
  let empty := emptyCells b
  if empty.isEmpty then none else random_choice pick empty

def get_easy_move_no_draw (pick : Nat) (b : Board) (_x_moves o_moves : List Nat) :
    Option Nat :=
  let empty := emptyCells b
  let empty :=
    if o_moves.length ≥ 3 then
      match o_moves with
      | old :: _ => if cellAt b old == some Player.O then empty ++ [old] else empty
      | [] => empty
    else empty
  if empty.isEmpty then none else random_choice pick empty

/-! ## Medium AI (ai_medium.py) -/

/-- ai_medium.find_winning_move: first line with two `player` marks and one
empty slot, returning that slot. -/
def find_winning_move (b : Board) (p : Player) : Option Nat :=
  WINNING_COMBINATIONS.findSome? (fun c =>
    let idxs := [c.1, c.2.1, c.2.2]
    let values := idxs.map (cellAt b)
    if values.count (some p) == 2 && values.count none == 1 then
      idxs.get? (values.indexOf none)
    else none)

def get_medium_move (pick : Nat) (b : Board) : Option Nat :=
  let empty := emptyCells b
  if empty.isEmpty then none
  else
    match find_winning_move b Player.O with
    | some w => some w
    | none =>
      match find_winning_move b Player.X with
      | some blk => some blk
      | none => random_choice pick empty

/-- ai_medium._simulate_no_draw_board: on a copy, remove the oldest mark when
at capacity, then place the new mark. -/
def simulate_no_draw_board (b : Board) (p : Player) (position : Nat)
    (player_moves : List Nat) : Board :=
  let sb :=
    if player_moves.length ≥ 3 then
      match player_moves with
      | old :: _ => b.set old none
      | [] => b
    else b
  sb.set position (some p)

/-- Candidate positions in No-Draw mode: empty cells, plus the player's oldest
mark when the history is at capacity (shared shape of ai_medium.py lines 67-72,
88-93). -/
def availableND (b : Board) (moves : List Nat) : List Nat :=
  let available := emptyCells b
  if moves.length ≥ 3 then
    match moves with
    | old :: _ => if old ∈ available then available else available ++ [old]
    | [] => available
  else available

/-- ai_medium.find_winning_move_no_draw. -/
def find_winning_move_no_draw (b : Board) (p : Player) (player_moves : List Nat) :
    Option Nat :=
  (availableND b player_moves).find? (fun pos =>
    check_winner (simulate_no_draw_board b p pos player_moves) p)

/-- ai_medium.get_medium_move_no_draw. -/
def get_medium_move_no_draw (pick : Nat) (b : Board) (x_moves o_moves : List Nat) :
    Option Nat :=
  let available := availableND b o_moves
  if available.isEmpty then none
  else
    match find_winning_move_no_draw b Player.O o_moves with
    | some w => some w
    | none =>
      match find_winning_move_no_draw b Player.X x_moves with
      | some blk => if blk ∈ available then some blk else random_choice pick available
      | none => random_choice pick available

/-! ## Hard AI, Standard (ai_hard.py minimax / get_hard_move)

The Python function recurses on a board that strictly gains one mark per
level, so a fuel argument bounded below by the number of empty cells makes
the recursion structural; fuel is irrelevant beyond that bound (proved
below).  float('-inf') / float('inf') initial accumulators are modelled by
the integers -1000 / 1000, strictly outside every achievable score. -/

def minimax : Nat → Board → Nat → Bool → Int
  | fuel, b, depth, is_maximizing =>
    if check_winner b Player.O then 10 - (depth : Int)
    else if check_winner b Player.X then (depth : Int) - 10
    else if is_board_full b then 0
    else
      match fuel with
      | 0 => 0
      | fuel' + 1 =>
        let empty := emptyCells b
        if is_maximizing then
          empty.foldl (fun best pos =>
            max best (minimax fuel' (b.set pos (some Player.O)) (depth + 1) false))
            (-1000)
        else
          empty.foldl (fun best pos =>
            min best (minimax fuel' (b.set pos (some Player.X)) (depth + 1) true))
            1000

/-- ai_hard.get_hard_move: argmax over empty cells of the minimax score,
first occurrence winning ties (strict improvement updates). -/
def get_hard_move (b : Board) : Option Nat :=
  let empty := emptyCells b
  match empty with
  | [] => none
  | e0 :: _ =>
    let r := empty.foldl (fun (acc : Int × Nat) pos =>
      let score := minimax 9 (b.set pos (some Player.O)) 0 false
      if score > acc.1 then (score, pos) else acc) (-1000, e0)
    some r.2

/-! ## Hard AI, No-Draw (ai_hard.py) -/

def MOVE_PRIORITY : List Nat := [4, 0, 2, 6, 8, 1, 3, 5, 7]

def orderKey (m : Nat) : Nat :=
  if m ∈ MOVE_PRIORITY then MOVE_PRIORITY.indexOf m else 9

/-- Stable insertion of `x` into a list already sorted by `orderKey`. -/
def insertByKey (x : Nat) : List Nat → List Nat
  | [] => [x]
  | y :: ys => if orderKey x ≤ orderKey y then x :: y :: ys else y :: insertByKey x ys

/-- ai_hard._order_moves: Python's stable sorted-by-key; the keys of distinct
board positions are distinct, so insertion sort yields the same order. -/
def order_moves (moves : List Nat) : List Nat :=
  moves.foldr insertByKey []

/-- ai_hard._get_dynamic_depth. -/
def get_dynamic_depth (b : Board) : Nat :=
  let empty := (b.filter (fun c => c == none)).length
  if empty ≥ 7 then 4 else if empty ≥ 5 then 5 else 6

/-- ai_hard._get_available_moves_no_draw: empty cells plus the oldest mark of
a player at capacity, in strategic order. -/
def available_moves_no_draw (b : Board) (player_moves : List Nat) : List Nat :=
  let available := emptyCells b
  let available :=
    if player_moves.length ≥ MAX_MARKS then
      match player_moves with
      | old :: _ => if old ∈ available then available else available ++ [old]
      | [] => available
    else available
  order_moves available

/-- ai_hard._heuristic_score. -/
def heuristic_score (b : Board) : Int :=
  let counts := WINNING_COMBINATIONS.foldl (fun (acc : Int × Int) c =>
    let vals := [cellAt b c.1, cellAt b c.2.1, cellAt b c.2.2]
    let o_count := vals.count (some Player.O)
    let x_count := vals.count (some Player.X)
    let acc := if x_count == 0 && o_count > 0 then (acc.1 + o_count, acc.2) else acc
    if o_count == 0 && x_count > 0 then (acc.1, acc.2 + x_count) else acc) (0, 0)
  counts.1 - counts.2

/-- ai_hard._board_key. -/
abbrev TKey := Board × List Nat × List Nat × Bool

/-- The transposition table `_tp_table`, cleared at each top-level call;
a Python dict modelled as an association list with most-recent-first lookup. -/
abbrev TTable := List (TKey × Int)

def tpLookup (t : TTable) (k : TKey) : Option Int :=
  (t.find? (fun e => e.1 == k)).map (·.2)

def tpStore (t : TTable) (k : TKey) (v : Int) : TTable := (k, v) :: t

/-- One simulation step shared by both minimax_no_draw loops and the
top-level function: evict the oldest mark when at capacity (remembering it),
place the mark.  Returns (removed, board after eviction and placement,
history copy after pop). -/
def simStep (b : Board) (player : Player) (pos : Nat) (player_moves : List Nat) :
    Option Nat × Board × List Nat :=
  if player_moves.length ≥ MAX_MARKS then
    match player_moves with
    | m0 :: rest => (some m0, (b.set m0 none).set pos (some player), rest)
    | [] => (none, b.set pos (some player), player_moves)
  else (none, b.set pos (some player), player_moves)

/-- Undo of `simStep` as written in the source: clear `pos`, then restore the
removed mark. -/
def simUndo (b : Board) (player : Player) (pos : Nat) (removed : Option Nat) :
    Board :=
  let b := b.set pos none
  match removed with
  | some r => b.set r (some player)
  | none => b

/-- The maximizing loop of ai_hard.minimax_no_draw (lines 186-214), with the
recursive call abstracted as `recurse` (applied to the simulated board, the
updated history, alpha and beta, and the table).  Carries
(best, alpha, board, table); breaks on beta <= alpha. -/
def loopMaxND
    (recurse : Board → List Nat → Int → Int → TTable → Int × Board × TTable)
    (depth : Nat) (player_moves : List Nat) (beta : Int) :
    List Nat → Board → TTable → Int → Int → Int × Board × TTable
  | [], b, tbl, best, _alpha => (best, b, tbl)
  | pos :: rest, b, tbl, best, alpha =>
    let s := simStep b Player.O pos player_moves
    let newMoves := s.2.2 ++ [pos]
    let scoreState :=
      if check_winner s.2.1 Player.O then ((10 : Int) - depth, s.2.1, tbl)
      else recurse s.2.1 newMoves alpha beta tbl
    let b2 := simUndo scoreState.2.1 Player.O pos s.1
    let best' := max best scoreState.1
    let alpha' := max alpha best'
    if beta ≤ alpha' then (best', b2, scoreState.2.2)
    else loopMaxND recurse depth player_moves beta rest b2 scoreState.2.2 best' alpha'

/-- The minimizing loop of ai_hard.minimax_no_draw (lines 215-243). -/
def loopMinND
    (recurse : Board → List Nat → Int → Int → TTable → Int × Board × TTable)
    (depth : Nat) (player_moves : List Nat) (alpha : Int) :
    List Nat → Board → TTable → Int → Int → Int × Board × TTable
  | [], b, tbl, best, _beta => (best, b, tbl)
  | pos :: rest, b, tbl, best, beta =>
    let s := simStep b Player.X pos player_moves
    let newMoves := s.2.2 ++ [pos]
    let scoreState :=
      if check_winner s.2.1 Player.X then ((depth : Int) - 10, s.2.1, tbl)
      else recurse s.2.1 newMoves alpha beta tbl
    let b2 := simUndo scoreState.2.1 Player.X pos s.1
    let best' := min best scoreState.1
    let beta' := min beta best'
    if beta' ≤ alpha then (best', b2, scoreState.2.2)
    else loopMinND recurse depth player_moves alpha rest b2 scoreState.2.2 best' beta'

/-- ai_hard.minimax_no_draw.  The board and the transposition table are
threaded explicitly (the Python code mutates both in place); fuel bounds the
recursion depth and is irrelevant once at least max_depth - depth
(the depth cutoff fires before fuel can run out in every use below). -/
def minimax_no_draw : Nat → Board → Nat → Bool → List Nat → List Nat → Nat →
    Int → Int → TTable → Int × Board × TTable
  | fuel, b, depth, is_maximizing, x_moves, o_moves, max_depth, alpha, beta, tbl =>
    if check_winner b Player.O then (10 - (depth : Int), b, tbl)
    else if check_winner b Player.X then ((depth : Int) - 10, b, tbl)
    else if depth ≥ max_depth then (heuristic_score b, b, tbl)
    else
      let key : TKey := (b, x_moves, o_moves, is_maximizing)
      match tpLookup tbl key with
      | some v => (v, b, tbl)
      | none =>
        let player_moves := if is_maximizing then o_moves else x_moves
        let available := available_moves_no_draw b player_moves
        if available.isEmpty then (heuristic_score b, b, tbl)
        else
          match fuel with
          | 0 => (0, b, tbl)
          | fuel' + 1 =>
            if is_maximizing then
              let r := loopMaxND
                (fun b' om' a' b'' t' =>
                  minimax_no_draw fuel' b' (depth + 1) false x_moves om' max_depth a' b'' t')
                depth o_moves beta available b tbl (-1000) alpha
              (r.1, r.2.1, tpStore r.2.2 key r.1)
            else
              let r := loopMinND
                (fun b' xm' a' b'' t' =>
                  minimax_no_draw fuel' b' (depth + 1) true xm' o_moves max_depth a' b'' t')
                depth x_moves alpha available b tbl 1000 beta
              (r.1, r.2.1, tpStore r.2.2 key r.1)

/-- Fast path of ai_hard.get_hard_move_no_draw (lines 262-274): simulate each
candidate, return the first immediate win; the board is mutated and undone
per candidate, so it is threaded. -/
def fastPathND (o_moves : List Nat) : List Nat → Board → Option Nat × Board
  | [], b => (none, b)
  | pos :: rest, b =>
    let s := simStep b Player.O pos o_moves
    let won := check_winner s.2.1 Player.O
    let b2 := simUndo s.2.1 Player.O pos s.1
    if won then (some pos, b2) else fastPathND o_moves rest b2

/-- The top-level scoring loop of ai_hard.get_hard_move_no_draw
(lines 282-298), exactly as written: the per-candidate simulation is not
undone, best_score and best_move are never updated, and only
alpha = max(alpha, best_score) runs after each candidate. -/
def loopTopND (x_moves o_moves : List Nat) (max_depth : Nat) (beta : Int) :
    List Nat → Board → TTable → Int → Nat → Int → Nat × Board × TTable
  | [], b, tbl, _best_score, best_move, _alpha => (best_move, b, tbl)
  | pos :: rest, b, tbl, best_score, best_move, alpha =>
    let s := simStep b Player.O pos o_moves
    let newOMoves := s.2.2 ++ [pos]
    let scoreState :=
      if check_winner s.2.1 Player.O then ((10 : Int), s.2.1, tbl)
      else minimax_no_draw 9 s.2.1 0 false x_moves newOMoves max_depth alpha beta tbl
    let alpha' := max alpha best_score
    loopTopND x_moves o_moves max_depth beta rest scoreState.2.1 scoreState.2.2
      best_score best_move alpha'

/-- ai_hard.get_hard_move_no_draw: returns the chosen position paired with
the final contents of the caller's board list. -/
def get_hard_move_no_draw (b : Board) (x_moves o_moves : List Nat) :
    Option Nat × Board :=
  let available := available_moves_no_draw b o_moves
  if available.isEmpty then (none, b)
  else
    match fastPathND o_moves available b with
    | (some pos, b') => (some pos, b')
    | (none, b') =>
      let max_depth := get_dynamic_depth b'
      match available with
      | [] => (none, b')
      | a0 :: _ =>
        let r := loopTopND x_moves o_moves max_depth 1000 available b' [] (-1000) a0 (-1000)
        (some r.1, r.2.1)

/-! ## A certified drawing strategy for the second player

The following definitions are verification artifacts, not embeddings of the
source: `sigma` is an explicit strategy for O, and `secure` checks that,
with X moving arbitrarily and O following `sigma`, X can never complete a
line.  A soundness lemma below transfers `secure = true` to a lower bound
on the minimax value, which is what the never-loses argument needs at the
initial position. -/

/-- Number of lines on which `p` has two marks and the third cell is empty. -/
def forkCount (b : Board) (p : Player) : Nat :=
  WINNING_COMBINATIONS.countP (fun c =>
    let values := [cellAt b c.1, cellAt b c.2.1, cellAt b c.2.2]
    values.count (some p) == 2 && values.count none == 1)

/-- A cell whose placement gives O an immediate threat whose forced block
leaves X with fewer than two simultaneous threats. -/
def safeThreat (b : Board) (p : Nat) : Bool :=
  let b2 := b.set p (some Player.O)
  match find_winning_move b2 Player.O with
  | some t => decide (forkCount (b2.set t (some Player.X)) Player.X < 2)
  | none => false

/-- O's certificate strategy: win, block, centre, safe threat, corner, edge. -/
def sigma (b : Board) : Nat :=
  match find_winning_move b Player.O with
  | some w => w
  | none =>
    match find_winning_move b Player.X with
    | some blk => blk
    | none =>
      if cellAt b 4 == none then 4
      else
        match (emptyCells b).find? (fun p => safeThreat b p) with
        | some p => p
        | none =>
          match ([0, 2, 6, 8] : List Nat).find? (fun p => cellAt b p == none) with
          | some p => p
          | none =>
            ((([1, 3, 5, 7] : List Nat).find? (fun p => cellAt b p == none)).getD 0)

/-- Bounded game-tree check: with X to move when `xturn`, X choosing any
empty cell and O answering with `sigma`, X never completes a line. -/
def secure : Nat → Board → Bool → Bool
  | fuel, b, xturn =>
    if check_winner b Player.O then true
    else if check_winner b Player.X then false
    else if is_board_full b then true
    else
      match fuel with
      | 0 => false
      | fuel' + 1 =>
        if xturn then
          (emptyCells b).all (fun q => secure fuel' (b.set q (some Player.X)) false)
        else
          let p := sigma b
          (emptyCells b).contains p && secure fuel' (b.set p (some Player.O)) true

/-! ## Reachability relations

`Reachable` closes the standard engine under valid moves from reset;
`NDReachable` does the same for the No-Draw engine.  `HardReachable`
describes the playouts of claim C3: X plays arbitrary valid moves and every
O move is the index returned by get_hard_move. -/

inductive Reachable : Game → Prop where
  | init : Reachable Game.reset
  | step {g : Game} (position : Int) : Reachable g →
      g.is_valid_move position = true → Reachable (g.make_move position).2

inductive NDReachable : NDGame → Prop where
  | init : NDReachable NDGame.reset
  | step {g : NDGame} (position : Int) : NDReachable g →
      g.is_valid_move position = true → NDReachable (g.make_move position).2

inductive HardReachable : Game → Prop where
  | init : HardReachable Game.reset
  | stepX {g : Game} (position : Int) : HardReachable g →
      g.current_player = Player.X → g.is_valid_move position = true →
      HardReachable (g.make_move position).2
  | stepO {g : Game} (pos : Nat) : HardReachable g →
      g.current_player = Player.O → get_hard_move g.board = some pos →
      HardReachable (g.make_move (pos : Int)).2

/-! ## Concrete states used by counterexamples and witnesses -/

/-- The No-Draw state after the move sequence 0,1,2,3,4,5 from reset:
X holds 0,2,4 (history [0,2,4], at capacity), O holds 1,3,5, X to move. -/
def ndExample : NDGame :=
  { board := [some Player.X, some Player.O, some Player.X, some Player.O,
              some Player.X, some Player.O, none, none, none]
    current_player := Player.X
    game_over := false
    winner := none
    x_moves := [0, 2, 4]
    o_moves := [1, 3, 5] }

/-- History-board consistency used by the hard-AI restoration lemmas: the
entries of a player's history are distinct and each still carries that
player's mark. -/
def MovesInv (b : Board) (moves : List Nat) (p : Player) : Prop :=
  moves.Nodup ∧ ∀ i ∈ moves, cellAt b i = some p

/-- The candidate condition satisfied by every move that
_get_available_moves_no_draw can produce: an empty cell, or the oldest mark
of a player at capacity. -/
def Cand (b : Board) (moves : List Nat) (pos : Nat) : Prop :=
  cellAt b pos = none ∨ (moves.length ≥ MAX_MARKS ∧ moves.head? = some pos)

/-- The parity invariant maintained by the standard engine. -/
def StdInv (g : Game) : Prop :=
  g.board.length = 9 ∧
  (g.game_over = false →
    (g.current_player = Player.X →
      g.board.count (some Player.X) = g.board.count (some Player.O)) ∧
    (g.current_player = Player.O →
      g.board.count (some Player.X) = g.board.count (some Player.O) + 1)) ∧
  (g.game_over = true →
    g.board.count (some Player.X) = g.board.count (some Player.O) ∨
    g.board.count (some Player.X) = g.board.count (some Player.O) + 1)

/-- History-board correspondence for one player of the No-Draw engine:
history entries are distinct, at most three, and are exactly the cells
carrying that player's mark; the mark count equals the history length. -/
def HistInv (b : Board) (moves : List Nat) (p : Player) : Prop :=
  moves.Nodup ∧ moves.length ≤ 3 ∧
  (∀ i, cellAt b i = some p ↔ i ∈ moves) ∧
  b.count (some p) = moves.length

/-- The invariant maintained by the No-Draw engine. -/
def NDInv (g : NDGame) : Prop :=
  g.board.length = 9 ∧
  HistInv g.board g.x_moves Player.X ∧
  HistInv g.board g.o_moves Player.O ∧
  (g.game_over = true → g.winner ≠ none)

/-- The never-loses invariant for playouts where O is played by
get_hard_move: X has never won, and while the game runs the side to move
stands at a non-negative minimax value for O. -/
def HardInv (g : Game) : Prop :=
  g.board.length = 9 ∧
  (g.winner = some Player.O ∨ g.winner = none) ∧
  (g.game_over = false →
    check_winner g.board Player.X = false ∧
    check_winner g.board Player.O = false ∧
    is_board_full g.board = false ∧
    (g.current_player = Player.X → 0 ≤ minimax 9 g.board 0 false) ∧
    (g.current_player = Player.O → 0 ≤ minimax 9 g.board 0 true))

/-! # Lemmas and theorems -/

theorem cellAt_lt_length {b : Board} {i : Nat} {p : Player}
    (h : cellAt b i = some p) : i < b.length := by
  by_contra hlt
  push_neg at hlt
  rw [cellAt, List.getD_eq_getElem?_getD, List.getElem?_eq_none hlt] at h
  simp at h

theorem set_cellAt_self {b : Board} {i : Nat} {v : Cell}
    (h : cellAt b i = v) : b.set i v = b := by
  induction b generalizing i with
  | nil => simp
  | cons c t ih =>
    cases i with
    | zero =>
      simp only [cellAt, List.getD_cons_zero] at h
      simp [h]
    | succ j =>
      simp only [cellAt, List.getD_cons_succ] at h
      simp [List.set_cons_succ, ih h]

theorem cellAt_set_self {b : Board} {i : Nat} (v : Cell)
    (h : i < b.length) : cellAt (b.set i v) i = v := by
  induction b generalizing i with
  | nil => simp at h
  | cons c t ih =>
    cases i with
    | zero => simp [cellAt]
    | succ j =>
      simp only [List.length_cons, Nat.succ_lt_succ_iff] at h
      simpa [cellAt, List.set_cons_succ] using ih h

theorem cellAt_set_ne {b : Board} {i j : Nat} (v : Cell)
    (h : i ≠ j) : cellAt (b.set i v) j = cellAt b j := by
  induction b generalizing i j with
  | nil => simp
  | cons c t ih =>
    cases i with
    | zero =>
      cases j with
      | zero => exact absurd rfl h
      | succ j' => simp [cellAt]
    | succ i' =>
      cases j with
      | zero => simp [cellAt, List.set_cons_succ]
      | succ j' =>
        simpa [cellAt, List.set_cons_succ] using
          ih (fun hc => h (by rw [hc]))

/-! ## Folded max / min helper lemmas -/

theorem le_foldl_max {α : Type} (f : α → Int) (l : List α) (init : Int) :
    init ≤ l.foldl (fun acc x => max acc (f x)) init := by
  induction l generalizing init with
  | nil => simp
  | cons a t ih => exact le_trans (le_max_left _ _) (ih (max init (f a)))

theorem mem_le_foldl_max {α : Type} (f : α → Int) {l : List α} {x : α}
    (hx : x ∈ l) (init : Int) :
    f x ≤ l.foldl (fun acc y => max acc (f y)) init := by
  induction l generalizing init with
  | nil => cases hx
  | cons a t ih =>
    rcases List.mem_cons.mp hx with h | h
    · subst h
      exact le_trans (le_max_right _ _) (le_foldl_max f t _)
    · exact ih h _

theorem foldl_max_le {α : Type} (f : α → Int) (l : List α) (init c : Int)
    (h0 : init ≤ c) (h : ∀ x ∈ l, f x ≤ c) :
    l.foldl (fun acc x => max acc (f x)) init ≤ c := by
  induction l generalizing init with
  | nil => simpa
  | cons a t ih =>
    exact ih _ (max_le h0 (h a (List.mem_cons_self a t))) fun x hx => h x (List.mem_cons_of_mem _ hx)

theorem foldl_min_le_init {α : Type} (f : α → Int) (l : List α) (init : Int) :
    l.foldl (fun acc x => min acc (f x)) init ≤ init := by
  induction l generalizing init with
  | nil => simp
  | cons a t ih => exact le_trans (ih (min init (f a))) (min_le_left _ _)

theorem foldl_min_le_mem {α : Type} (f : α → Int) {l : List α} {x : α}
    (hx : x ∈ l) (init : Int) :
    l.foldl (fun acc y => min acc (f y)) init ≤ f x := by
  induction l generalizing init with
  | nil => cases hx
  | cons a t ih =>
    rcases List.mem_cons.mp hx with h | h
    · subst h
      exact le_trans (foldl_min_le_init f t _) (min_le_right _ _)
    · exact ih h _

theorem le_foldl_min {α : Type} (f : α → Int) (l : List α) (init c : Int)
    (h0 : c ≤ init) (h : ∀ x ∈ l, c ≤ f x) :
    c ≤ l.foldl (fun acc x => min acc (f x)) init := by
  induction l generalizing init with
  | nil => simpa
  | cons a t ih =>
    exact ih _ (le_min h0 (h a (List.mem_cons_self a t))) fun x hx => h x (List.mem_cons_of_mem _ hx)

/-! ## Claim C7: No-Draw hard AI fast-path win -/

/-- C7: on board [None,None,X,O,O,None,X,None,X] with xMoves=[2,6,8],
oMoves=[3,4], get_hard_move_no_draw returns index 5 (the fast path detects
that placing O at 5 completes line (3,4,5)), and hands back the board
unchanged. -/
theorem C7_hard_no_draw_fast_path_win :
    get_hard_move_no_draw
      [none, none, some Player.X, some Player.O, some Player.O, none,
       some Player.X, none, some Player.X] [2, 6, 8] [3, 4] =
    (some 5,
     [none, none, some Player.X, some Player.O, some Player.O, none,
      some Player.X, none, some Player.X]) := by decide

/-! ## Claim C8: medium AI win-over-block and block -/

/-- C8: get_medium_move prefers completing its own line (index 5 on the
first board) and blocks X's completed-line threat (index 2 on the second
board), for every value of the injected random selector. -/
theorem C8_medium_win_and_block :
    ∀ pick : Nat,
      get_medium_move pick
        [some Player.X, some Player.X, none, some Player.O, some Player.O,
         none, none, none, none] = some 5 ∧
      get_medium_move pick
        [some Player.X, some Player.X, none, some Player.O, none, none,
         none, none, none] = some 2 :=
  fun _ => ⟨rfl, rfl⟩

/-! ## Claim C10: medium No-Draw AI returns O-playable indices -/

theorem random_choice_mem {pick : Nat} {l : List Nat} {i : Nat}
    (h : random_choice pick l = some i) : i ∈ l :=
  List.get?_mem h

theorem mem_availableND {b : Board} {moves : List Nat} {i : Nat}
    (h : i ∈ availableND b moves) :
    i ∈ emptyCells b ∨ (moves.length ≥ 3 ∧ moves.head? = some i) := by
  cases moves with
  | nil =>
    simp only [availableND] at h
    norm_num at h
    exact Or.inl h
  | cons old rest =>
    by_cases hlen : (old :: rest).length ≥ 3
    · have hav : availableND b (old :: rest) =
          if old ∈ emptyCells b then emptyCells b else emptyCells b ++ [old] := by
        simp only [availableND]
        rw [if_pos hlen]
      rw [hav] at h
      by_cases hmem : old ∈ emptyCells b
      · rw [if_pos hmem] at h
        exact Or.inl h
      · rw [if_neg hmem] at h
        rcases List.mem_append.mp h with h | h
        · exact Or.inl h
        · right
          refine ⟨hlen, ?_⟩
          have : i = old := List.mem_singleton.mp h
          simp [this]
    · simp only [availableND, hlen, if_false] at h
      exact Or.inl h

theorem find_winning_move_no_draw_mem {b : Board} {p : Player}
    {moves : List Nat} {i : Nat}
    (h : find_winning_move_no_draw b p moves = some i) :
    i ∈ availableND b moves :=
  List.mem_of_find?_eq_some h

theorem cellAt_of_mem_emptyCells {b : Board} {i : Nat}
    (h : i ∈ emptyCells b) : cellAt b i = none := by
  have := (List.mem_filter.mp h).2
  simpa using this

/-- C10 (amended): whenever get_medium_move_no_draw returns an index, that
index is an empty cell or O's evictable oldest mark — provided the snapshot
is consistent enough that o_moves[0] does not point at an X cell, the result
is never a cell occupied by X. -/
theorem C10_medium_no_draw_playable (pick : Nat) (b : Board)
    (x_moves o_moves : List Nat) (i : Nat)
    (hcons : o_moves.length ≥ 3 → cellAt b (o_moves.headD 0) ≠ some Player.X)
    (h : get_medium_move_no_draw pick b x_moves o_moves = some i) :
    (i ∈ emptyCells b ∨ (o_moves.length ≥ 3 ∧ o_moves.head? = some i)) ∧
      cellAt b i ≠ some Player.X := by
  have hmem : i ∈ availableND b o_moves := by
    by_cases he : (availableND b o_moves).isEmpty = true
    · simp [get_medium_move_no_draw, he] at h
    · cases hw : find_winning_move_no_draw b Player.O o_moves with
      | some w =>
        simp [get_medium_move_no_draw, he, hw] at h
        rw [← h]
        exact find_winning_move_no_draw_mem hw
      | none =>
        cases hb : find_winning_move_no_draw b Player.X x_moves with
        | some blk =>
          by_cases hba : blk ∈ availableND b o_moves
          · simp [get_medium_move_no_draw, he, hw, hb, hba] at h
            rw [← h]
            exact hba
          · simp [get_medium_move_no_draw, he, hw, hb, hba] at h
            exact random_choice_mem h
        | none =>
          simp [get_medium_move_no_draw, he, hw, hb] at h
          exact random_choice_mem h
  rcases mem_availableND hmem with hemp | ⟨hlen, hhd⟩
  · exact ⟨Or.inl hemp, by rw [cellAt_of_mem_emptyCells hemp]; simp⟩
  · refine ⟨Or.inr ⟨hlen, hhd⟩, ?_⟩
    have : o_moves.headD 0 = i := by
      cases o_moves with
      | nil => simp at hhd
      | cons a t => simpa using hhd
    rw [← this]
    exact hcons hlen

/-- C10 counterexample to the unrestricted claim: with an inconsistent
snapshot whose o_moves[0] points at an X-occupied cell, the medium No-Draw
AI returns that X-occupied cell (completing line (0,4,8) through the
simulated eviction of index 0). -/
theorem C10_counterexample_inconsistent_snapshot :
    get_medium_move_no_draw 0
      [some Player.X, none, none, none, some Player.O, none, none, none,
       some Player.O] [0] [0, 4, 8] = some 0 ∧
    cellAt
      [some Player.X, none, none, none, some Player.O, none, none, none,
       some Player.O] 0 = some Player.X := by decide

/-- Witness for C10: a consistent late-game snapshot (X has the full top
row and history [0,1,2]; the only completion of X's threat is X's own
oldest cell 0, which O cannot play, so the AI falls through to a random
playable move: index 5). -/
theorem C10_medium_no_draw_playable_witness :
    get_medium_move_no_draw 0
      [some Player.X, some Player.X, some Player.X, some Player.O,
       some Player.O, none, none, some Player.O, none]
      [0, 1, 2] [3, 4, 7] = some 5 ∧
    ((5 ∈ emptyCells
      [some Player.X, some Player.X, some Player.X, some Player.O,
       some Player.O, none, none, some Player.O, none] ∨
      (([3, 4, 7] : List Nat).length ≥ 3 ∧
        ([3, 4, 7] : List Nat).head? = some 5)) ∧
      cellAt
        [some Player.X, some Player.X, some Player.X, some Player.O,
         some Player.O, none, none, some Player.O, none] 5 ≠ some Player.X) :=
  ⟨by decide,
   C10_medium_no_draw_playable 0 _ [0, 1, 2] [3, 4, 7] 5 (by decide) (by decide)⟩

/-! ## Claim C4: invalid moves fail silently in both engines -/

/-- C4: on any state of either engine, if is_valid_move is false then
make_move returns False and the whole state (board, current player,
game-over flag, winner, and for No-Draw both histories) is unchanged. -/
theorem C4_invalid_move_no_mutation (g : Game) (gn : NDGame) (position : Int) :
    (g.is_valid_move position = false → g.make_move position = (false, g)) ∧
    (gn.is_valid_move position = false → gn.make_move position = (false, gn)) := by
  constructor
  · intro h
    simp [Game.make_move, h]
  · intro h
    simp [NDGame.make_move, h]

theorem C4_invalid_move_no_mutation_witness :
    Game.reset.make_move 9 = (false, Game.reset) ∧
    NDGame.reset.make_move (-1) = (false, NDGame.reset) :=
  ⟨(C4_invalid_move_no_mutation Game.reset NDGame.reset 9).1 (by decide),
   (C4_invalid_move_no_mutation Game.reset NDGame.reset (-1)).2 (by decide)⟩

/-! ## Counting marks under cell updates -/

theorem cellAt_cons_zero (c : Cell) (t : Board) : cellAt (c :: t) 0 = c := rfl

theorem cellAt_cons_succ (c : Cell) (t : Board) (j : Nat) :
    cellAt (c :: t) (j + 1) = cellAt t j := rfl

theorem count_set {b : Board} {i : Nat} (hi : i < b.length) (v w : Cell) :
    (b.set i v).count w + (if cellAt b i == w then 1 else 0) =
      b.count w + (if v == w then 1 else 0) := by
  induction b generalizing i with
  | nil => simp at hi
  | cons c t ih =>
    cases i with
    | zero =>
      simp only [List.set_cons_zero, List.count_cons, cellAt_cons_zero]
      omega
    | succ j =>
      simp only [List.length_cons, Nat.succ_lt_succ_iff] at hi
      simp only [List.set_cons_succ, List.count_cons, cellAt_cons_succ]
      have := ih hi
      omega

theorem count_set_place_self {b : Board} {i : Nat} (p : Player)
    (hi : cellAt b i = none) (hlt : i < b.length) :
    (b.set i (some p)).count (some p) = b.count (some p) + 1 := by
  have h := count_set hlt (some p) (some p)
  rw [hi] at h
  simpa using h

theorem count_set_place_other {b : Board} {i : Nat} {p q : Player}
    (hpq : p ≠ q) (hi : cellAt b i = none) (hlt : i < b.length) :
    (b.set i (some p)).count (some q) = b.count (some q) := by
  have h := count_set hlt (some p) (some q)
  rw [hi] at h
  have h1 : ((none : Cell) == some q) = false := by simp
  have h2 : ((some p : Cell) == some q) = false := by simp [hpq]
  rw [h1, h2] at h
  omega

theorem count_set_clear_self {b : Board} {i : Nat} {p : Player}
    (hi : cellAt b i = some p) (hlt : i < b.length) :
    (b.set i none).count (some p) + 1 = b.count (some p) := by
  have h := count_set hlt none (some p)
  rw [hi] at h
  simpa using h

theorem count_set_clear_other {b : Board} {i : Nat} {p q : Player}
    (hpq : p ≠ q) (hi : cellAt b i = some p) (hlt : i < b.length) :
    (b.set i none).count (some q) = b.count (some q) := by
  have h := count_set hlt none (some q)
  rw [hi] at h
  have h1 : ((some p : Cell) == some q) = false := by simp [hpq]
  have h2 : ((none : Cell) == some q) = false := by simp
  rw [h1, h2] at h
  omega

/-! ## Claim C9: standard-engine alternation and count balance -/

theorem valid_move_fields {g : Game} {position : Int}
    (h : g.is_valid_move position = true) :
    g.game_over = false ∧ position.toNat < 9 ∧ cellAt g.board position.toNat = none := by
  unfold Game.is_valid_move at h
  simp only [Bool.and_eq_true, beq_iff_eq, Bool.not_eq_true', decide_eq_true_eq] at h
  obtain ⟨⟨⟨h1, h2⟩, h3⟩, h4⟩ := h
  refine ⟨h1, ?_, h4⟩
  omega

theorem stdInv_step {g : Game} {position : Int} (hInv : StdInv g)
    (h : g.is_valid_move position = true) : StdInv (g.make_move position).2 := by
  obtain ⟨hlen, hrun, _hover⟩ := hInv
  obtain ⟨hgo, hlt9, hcell⟩ := valid_move_fields h
  have hlt : position.toNat < g.board.length := by rw [hlen]; exact hlt9
  cases hp : g.current_player with
  | X =>
    have hcount := (hrun hgo).1 hp
    have hx := count_set_place_self Player.X hcell hlt
    have ho := @count_set_place_other g.board position.toNat Player.X Player.O
      (by simp) hcell hlt
    unfold Game.make_move
    rw [h, hp]
    simp only [Bool.not_true, Bool.false_eq_true, if_false]
    by_cases hw : check_winner (g.board.set position.toNat (some Player.X))
        Player.X = true
    · rw [if_pos hw]
      refine ⟨by simp [hlen], fun hc => Bool.noConfusion hc, fun _ => Or.inr (by dsimp only; omega)⟩
    · rw [if_neg hw]
      by_cases hf : is_board_full (g.board.set position.toNat (some Player.X)) = true
      · rw [if_pos hf]
        refine ⟨by simp [hlen], fun hc => Bool.noConfusion hc, fun _ => Or.inr (by dsimp only; omega)⟩
      · rw [if_neg hf]
        refine ⟨by simp [hlen], fun _ => ?_, fun hc => ?_⟩
        · refine ⟨fun hcur => ?_, fun _ => by dsimp only; omega⟩
          dsimp only [switch] at hcur
          exact Player.noConfusion hcur
        · rw [hgo] at hc
          exact Bool.noConfusion hc
  | O =>
    have hcount := (hrun hgo).2 hp
    have ho := count_set_place_self Player.O hcell hlt
    have hx := @count_set_place_other g.board position.toNat Player.O Player.X
      (by simp) hcell hlt
    unfold Game.make_move
    rw [h, hp]
    simp only [Bool.not_true, Bool.false_eq_true, if_false]
    by_cases hw : check_winner (g.board.set position.toNat (some Player.O))
        Player.O = true
    · rw [if_pos hw]
      refine ⟨by simp [hlen], fun hc => Bool.noConfusion hc, fun _ => Or.inl (by dsimp only; omega)⟩
    · rw [if_neg hw]
      by_cases hf : is_board_full (g.board.set position.toNat (some Player.O)) = true
      · rw [if_pos hf]
        refine ⟨by simp [hlen], fun hc => Bool.noConfusion hc, fun _ => Or.inl (by dsimp only; omega)⟩
      · rw [if_neg hf]
        refine ⟨by simp [hlen], fun _ => ?_, fun hc => ?_⟩
        · refine ⟨fun _ => by dsimp only; omega, fun hcur => ?_⟩
          dsimp only [switch] at hcur
          exact Player.noConfusion hcur
        · rw [hgo] at hc
          exact Bool.noConfusion hc

theorem stdInv_reachable {g : Game} (h : Reachable g) : StdInv g := by
  induction h with
  | init => refine ⟨by decide, by decide, by decide⟩
  | step position _ hv ih => exact stdInv_step ih hv

/-- Every successful move that leaves the game running hands the turn to the
other player (holds for any state, not only reachable ones). -/
theorem make_move_switches {g : Game} {position : Int}
    (hvalid : g.is_valid_move position = true)
    (hrun : (g.make_move position).2.game_over = false) :
    (g.make_move position).2.current_player = switch g.current_player := by
  unfold Game.make_move at hrun ⊢
  rw [hvalid] at hrun ⊢
  simp only [Bool.not_true, Bool.false_eq_true, if_false] at hrun ⊢
  by_cases hw : check_winner (g.board.set position.toNat (some g.current_player))
      g.current_player = true
  · rw [if_pos hw] at hrun
    simp at hrun
  · rw [if_neg (by simpa using hw)] at hrun ⊢
    by_cases hf : is_board_full (g.board.set position.toNat (some g.current_player)) = true
    · rw [if_pos hf] at hrun
      simp at hrun
    · rw [if_neg (by simpa using hf)]

/-- C9: in every reachable standard-engine state, a successful move that does
not end the game switches the current player, and the X and O cell counts
never differ by more than one. -/
theorem C9_alternation_and_balance (g : Game) (h : Reachable g) :
    (∀ position : Int, g.is_valid_move position = true →
      (g.make_move position).2.game_over = false →
      (g.make_move position).2.current_player = switch g.current_player) ∧
    g.board.count (some Player.X) ≤ g.board.count (some Player.O) + 1 ∧
    g.board.count (some Player.O) ≤ g.board.count (some Player.X) + 1 := by
  obtain ⟨_, hrun, hover⟩ := stdInv_reachable h
  refine ⟨fun position hv hr => make_move_switches hv hr, ?_⟩
  cases hgo : g.game_over with
  | false =>
    have := hrun hgo
    cases hp : g.current_player with
    | X => have := this.1 hp; omega
    | O => have := this.2 hp; omega
  | true =>
    have := hover hgo
    omega

theorem C9_alternation_and_balance_witness :
    (Game.reset.make_move 4).2.current_player = switch Game.reset.current_player ∧
    Game.reset.board.count (some Player.X) ≤ Game.reset.board.count (some Player.O) + 1 :=
  ⟨(C9_alternation_and_balance Game.reset Reachable.init).1 4 (by decide) (by decide),
   (C9_alternation_and_balance Game.reset Reachable.init).2.1⟩

/-! ## No-Draw engine invariants -/

theorem nd_valid_fields {g : NDGame} {position : Int}
    (h : g.is_valid_move position = true) :
    g.game_over = false ∧ position.toNat < 9 ∧
    (cellAt g.board position.toNat = none ∨
      (cellAt g.board position.toNat = some g.current_player ∧
        (g.playerMoves g.current_player).length ≥ MAX_MARKS ∧
        (g.playerMoves g.current_player).head? = some position.toNat)) := by
  unfold NDGame.is_valid_move at h
  split at h
  · exact Bool.noConfusion h
  · next hcond =>
    rw [Bool.or_eq_true, not_or] at hcond
    push_neg at hcond
    obtain ⟨hgo', hrange⟩ := hcond
    have hgo : g.game_over = false := by
      cases hb : g.game_over with
      | true => exact absurd hb hgo'
      | false => rfl
    have hr : (decide (0 ≤ position) && decide (position ≤ 8)) = true := by
      cases hb : (decide (0 ≤ position) && decide (position ≤ 8)) with
      | false => exact absurd (by simp [hb]) hrange
      | true => rfl
    rw [Bool.and_eq_true, decide_eq_true_eq, decide_eq_true_eq] at hr
    have hlt : position.toNat < 9 := by omega
    refine ⟨hgo, hlt, ?_⟩
    split at h
    · next heq => exact Or.inl heq
    · next p heq =>
      split at h
      · exact Bool.noConfusion h
      · next hne =>
        push_neg at hne
        rw [Bool.and_eq_true, decide_eq_true_eq, beq_iff_eq] at h
        exact Or.inr ⟨hne ▸ heq, h.1, h.2⟩

theorem evictPlace_board_length (b : Board) (p : Player) (pos : Nat)
    (moves : List Nat) : (evictPlace b p pos moves).1.length = b.length := by
  unfold evictPlace
  split
  · split <;> simp
  · simp

theorem histInv_mem_lt {b : Board} {moves : List Nat} {p : Player}
    (hI : HistInv b moves p) {i : Nat} (hm : i ∈ moves) : i < b.length :=
  cellAt_lt_length ((hI.2.2.1 i).mpr hm)

/-- The mover's history invariant is preserved by the eviction-placement
core, for any position the engine accepts. -/
theorem histInv_self {b : Board} {moves : List Nat} {p : Player} {pos : Nat}
    (hI : HistInv b moves p) (hpos : pos < b.length)
    (hcase : cellAt b pos = none ∨
      (cellAt b pos = some p ∧ moves.length ≥ MAX_MARKS ∧ moves.head? = some pos)) :
    HistInv (evictPlace b p pos moves).1 (evictPlace b p pos moves).2 p := by
  obtain ⟨hnd, hlen3, hiff, hcnt⟩ := hI
  by_cases hcap : moves.length ≥ MAX_MARKS
  · obtain ⟨m0, rest, rfl⟩ : ∃ a t, moves = a :: t := by
      cases moves with
      | nil => simp [MAX_MARKS] at hcap
      | cons a t => exact ⟨a, t, rfl⟩
    · have hm0cell : cellAt b m0 = some p := (hiff m0).mpr (List.mem_cons_self m0 rest)
      have hm0lt : m0 < b.length := cellAt_lt_length hm0cell
      have hposnone : pos ≠ m0 → cellAt b pos = none := by
        intro hne
        rcases hcase with hc | ⟨_, _, hh⟩
        · exact hc
        · exact absurd (by simpa using hh.symm) hne
      have hev : evictPlace b p pos (m0 :: rest) =
          (((b.set m0 none).set pos (some p)), rest ++ [pos]) := by
        unfold evictPlace
        rw [if_pos hcap]
      rw [hev]
      have hposrest : pos ∉ rest := by
        intro hmem
        by_cases hne : pos = m0
        · exact (List.nodup_cons.mp hnd).1 (hne ▸ hmem)
        · have := (hiff pos).mpr (List.mem_cons_of_mem _ hmem)
          rw [hposnone hne] at this
          exact Option.noConfusion this
      refine ⟨?_, ?_, ?_, ?_⟩
      · rw [List.nodup_append]
        refine ⟨(List.nodup_cons.mp hnd).2, by simp, ?_⟩
        exact fun x hx hxp => hposrest ((List.mem_singleton.mp hxp) ▸ hx)
      · simp only [List.length_append, List.length_singleton]
        simp only [List.length_cons] at hlen3
        omega
      · intro i
        by_cases hip : i = pos
        · subst hip
          rw [cellAt_set_self _ (by simpa using hpos)]
          simp
        · rw [cellAt_set_ne _ (fun hc => hip hc.symm)]
          by_cases him : i = m0
          · subst him
            rw [cellAt_set_self _ hm0lt]
            constructor
            · intro hc
              exact Option.noConfusion hc
            · intro hc
              rcases List.mem_append.mp hc with hc | hc
              · exact absurd hc (List.nodup_cons.mp hnd).1
              · exact absurd (List.mem_singleton.mp hc) (fun hh => hip hh)
          · rw [cellAt_set_ne _ (fun hc => him hc.symm)]
            rw [hiff i]
            simp only [List.mem_cons, List.mem_append, List.not_mem_nil, or_false]
            constructor
            · rintro (hc | hc)
              · exact absurd hc him
              · exact Or.inl hc
            · rintro (hc | hc)
              · exact Or.inr hc
              · exact absurd hc hip
      · have hc1 := count_set_clear_self hm0cell hm0lt
        have hc2 : cellAt (b.set m0 none) pos = none := by
          by_cases hne : pos = m0
          · subst hne
            exact cellAt_set_self _ hm0lt
          · rw [cellAt_set_ne _ (fun hc => hne hc.symm)]
            exact hposnone hne
        have hc3 := count_set_place_self p hc2 (by simpa using hpos)
        simp only [List.length_append, List.length_singleton]
        simp only [List.length_cons] at hcnt
        omega
  · have hev : evictPlace b p pos moves = (b.set pos (some p), moves ++ [pos]) := by
      unfold evictPlace
      rw [if_neg hcap]
    rw [hev]
    have hposnone : cellAt b pos = none := by
      rcases hcase with hc | ⟨_, hlen', _⟩
      · exact hc
      · exact absurd hlen' hcap
    have hposmoves : pos ∉ moves := by
      intro hmem
      have := (hiff pos).mpr hmem
      rw [hposnone] at this
      exact Option.noConfusion this
    refine ⟨?_, ?_, ?_, ?_⟩
    · simp only [List.nodup_append]
      exact ⟨hnd, by simp, by simpa [List.disjoint_singleton] using hposmoves⟩
    · simp only [List.length_append, List.length_singleton]
      simp only [MAX_MARKS, not_le] at hcap
      omega
    · intro i
      by_cases hip : i = pos
      · subst hip
        rw [cellAt_set_self _ hpos]
        simp
      · rw [cellAt_set_ne _ (fun hc => hip hc.symm)]
        rw [hiff i]
        simp only [List.mem_append, List.mem_cons, List.not_mem_nil, or_false]
        constructor
        · exact fun hc => Or.inl hc
        · rintro (hc | hc)
          · exact hc
          · exact absurd hc hip
    · have hc3 := count_set_place_self p hposnone hpos
      simp only [List.length_append, List.length_singleton]
      omega

/-- The opponent's history invariant is untouched by the eviction-placement
core. -/
theorem histInv_other {b : Board} {moves movesq : List Nat} {p q : Player}
    {pos : Nat} (hpq : p ≠ q)
    (hIp : HistInv b moves p) (hIq : HistInv b movesq q) (hpos : pos < b.length)
    (hcase : cellAt b pos = none ∨
      (cellAt b pos = some p ∧ moves.length ≥ MAX_MARKS ∧ moves.head? = some pos)) :
    HistInv (evictPlace b p pos moves).1 movesq q := by
  obtain ⟨hndq, hlenq, hiffq, hcntq⟩ := hIq
  have hposq : cellAt b pos ≠ some q := by
    rcases hcase with hc | ⟨hc, _, _⟩ <;> rw [hc] <;> simp
    exact fun hh => hpq hh
  have hposnotin : pos ∉ movesq := fun hmem => hposq ((hiffq pos).mpr hmem)
  by_cases hcap : moves.length ≥ MAX_MARKS
  · obtain ⟨m0, rest, rfl⟩ : ∃ a t, moves = a :: t := by
      cases moves with
      | nil => simp [MAX_MARKS] at hcap
      | cons a t => exact ⟨a, t, rfl⟩
    · have hm0cell : cellAt b m0 = some p :=
        (hIp.2.2.1 m0).mpr (List.mem_cons_self m0 rest)
      have hm0lt : m0 < b.length := cellAt_lt_length hm0cell
      have hm0q : m0 ∉ movesq := by
        intro hmem
        have := (hiffq m0).mpr hmem
        rw [hm0cell] at this
        exact hpq (Option.some.inj this)
      have hev : evictPlace b p pos (m0 :: rest) =
          (((b.set m0 none).set pos (some p)), rest ++ [pos]) := by
        unfold evictPlace
        rw [if_pos hcap]
      rw [hev]
      refine ⟨hndq, hlenq, ?_, ?_⟩
      · intro i
        by_cases hip : i = pos
        · subst hip
          rw [cellAt_set_self _ (by simpa using hpos)]
          constructor
          · intro hc
            exact absurd (Option.some.inj hc) hpq
          · intro hc
            exact absurd hc hposnotin
        · rw [cellAt_set_ne _ (fun hc => hip hc.symm)]
          by_cases him : i = m0
          · subst him
            rw [cellAt_set_self _ hm0lt]
            constructor
            · intro hc
              exact Option.noConfusion hc
            · intro hc
              exact absurd hc hm0q
          · rw [cellAt_set_ne _ (fun hc => him hc.symm)]
            exact hiffq i
      · have hc1 := count_set_clear_other hpq hm0cell hm0lt
        have hc2 : cellAt (b.set m0 none) pos ≠ some p → True := fun _ => trivial
        have hcell2 : cellAt (b.set m0 none) pos = none ∨
            cellAt (b.set m0 none) pos = some p := by
          by_cases hne : pos = m0
          · subst hne
            exact Or.inl (cellAt_set_self _ hm0lt)
          · rw [cellAt_set_ne _ (fun hc => hne hc.symm)]
            rcases hcase with hc | ⟨hc, _, _⟩
            · exact Or.inl hc
            · exact Or.inr hc
        have hc3 : ((b.set m0 none).set pos (some p)).count (some q) =
            (b.set m0 none).count (some q) := by
          rcases hcell2 with hc | hc
          · exact count_set_place_other hpq hc (by simpa using hpos)
          · have h := @count_set (b.set m0 none) pos
              (by simpa using hpos) (some p) (some q)
            rw [hc] at h
            have he : ((some p : Cell) == some q) = false := by simp [hpq]
            rw [he] at h
            omega
        rw [hc3, hc1, hcntq]
  · have hev : evictPlace b p pos moves = (b.set pos (some p), moves ++ [pos]) := by
      unfold evictPlace
      rw [if_neg hcap]
    rw [hev]
    have hposnone : cellAt b pos = none := by
      rcases hcase with hc | ⟨_, hlen', _⟩
      · exact hc
      · exact absurd hlen' hcap
    refine ⟨hndq, hlenq, ?_, ?_⟩
    · intro i
      by_cases hip : i = pos
      · subst hip
        rw [cellAt_set_self _ hpos]
        constructor
        · intro hc
          exact absurd (Option.some.inj hc) hpq
        · intro hc
          exact absurd hc hposnotin
      · rw [cellAt_set_ne _ (fun hc => hip hc.symm)]
        exact hiffq i
    · rw [count_set_place_other hpq hposnone hpos, hcntq]

theorem ndInv_step {g : NDGame} {position : Int} (hInv : NDInv g)
    (h : g.is_valid_move position = true) : NDInv (g.make_move position).2 := by
  obtain ⟨hlen, hxI, hoI, _hwin⟩ := hInv
  obtain ⟨hgo, hlt9, hcase⟩ := nd_valid_fields h
  have hlt : position.toNat < g.board.length := by rw [hlen]; exact hlt9
  unfold NDGame.make_move
  rw [h]
  simp only [Bool.not_true, Bool.false_eq_true, if_false]
  cases hp : g.current_player with
  | X =>
    rw [hp] at hcase
    have hblen := evictPlace_board_length g.board Player.X position.toNat
      (g.playerMoves Player.X)
    have hself := @histInv_self g.board g.x_moves Player.X position.toNat
      hxI hlt (by simpa [NDGame.playerMoves] using hcase)
    have hoth := @histInv_other g.board g.x_moves g.o_moves Player.X Player.O
      position.toNat (by simp) hxI hoI hlt
      (by simpa [NDGame.playerMoves] using hcase)
    by_cases hw : check_winner
        (evictPlace g.board Player.X position.toNat (g.playerMoves Player.X)).1
        Player.X = true
    · rw [if_pos hw]
      refine ⟨?_, ?_, ?_, ?_⟩
      · dsimp only [NDGame.setPlayerMoves]
        rw [hblen, hlen]
      · dsimp only [NDGame.setPlayerMoves]
        simpa [NDGame.playerMoves] using hself
      · dsimp only [NDGame.setPlayerMoves]
        simpa [NDGame.playerMoves] using hoth
      · intro _
        simp
    · rw [if_neg hw]
      refine ⟨?_, ?_, ?_, ?_⟩
      · dsimp only [NDGame.setPlayerMoves]
        rw [hblen, hlen]
      · dsimp only [NDGame.setPlayerMoves]
        simpa [NDGame.playerMoves] using hself
      · dsimp only [NDGame.setPlayerMoves]
        simpa [NDGame.playerMoves] using hoth
      · intro hc
        dsimp only [NDGame.setPlayerMoves] at hc
        rw [hgo] at hc
        exact Bool.noConfusion hc
  | O =>
    rw [hp] at hcase
    have hblen := evictPlace_board_length g.board Player.O position.toNat
      (g.playerMoves Player.O)
    have hself := @histInv_self g.board g.o_moves Player.O position.toNat
      hoI hlt (by simpa [NDGame.playerMoves] using hcase)
    have hoth := @histInv_other g.board g.o_moves g.x_moves Player.O Player.X
      position.toNat (by simp) hoI hxI hlt
      (by simpa [NDGame.playerMoves] using hcase)
    by_cases hw : check_winner
        (evictPlace g.board Player.O position.toNat (g.playerMoves Player.O)).1
        Player.O = true
    · rw [if_pos hw]
      refine ⟨?_, ?_, ?_, ?_⟩
      · dsimp only [NDGame.setPlayerMoves]
        rw [hblen, hlen]
      · dsimp only [NDGame.setPlayerMoves]
        simpa [NDGame.playerMoves] using hoth
      · dsimp only [NDGame.setPlayerMoves]
        simpa [NDGame.playerMoves] using hself
      · intro _
        simp
    · rw [if_neg hw]
      refine ⟨?_, ?_, ?_, ?_⟩
      · dsimp only [NDGame.setPlayerMoves]
        rw [hblen, hlen]
      · dsimp only [NDGame.setPlayerMoves]
        simpa [NDGame.playerMoves] using hoth
      · dsimp only [NDGame.setPlayerMoves]
        simpa [NDGame.playerMoves] using hself
      · intro hc
        dsimp only [NDGame.setPlayerMoves] at hc
        rw [hgo] at hc
        exact Bool.noConfusion hc

theorem ndInv_reachable {g : NDGame} (h : NDReachable g) : NDInv g := by
  induction h with
  | init =>
    have hcell : ∀ i, cellAt NDGame.reset.board i = none := by
      intro i
      show cellAt (List.replicate 9 none) i = none
      rw [cellAt, List.getD_eq_getElem?_getD, List.getElem?_replicate]
      split <;> rfl
    refine ⟨by decide, ⟨by decide, by decide, fun i => ?_, by decide⟩,
      ⟨by decide, by decide, fun i => ?_, by decide⟩, by decide⟩
    · rw [hcell i]
      simp [NDGame.reset]
    · rw [hcell i]
      simp [NDGame.reset]
  | step position _ hv ih => exact ndInv_step ih hv

/-! ## Claim C5: No-Draw reachable-state invariants -/

/-- C5: in every reachable No-Draw state, each player's mark count is at
most 3 and at most the length of their history, each history holds at most
3 entries, and the game is never over without a winner (no fullness draw). -/
theorem C5_no_draw_invariants (g : NDGame) (h : NDReachable g) :
    (g.board.count (some Player.X) ≤ 3 ∧
      g.board.count (some Player.X) ≤ g.x_moves.length ∧ g.x_moves.length ≤ 3) ∧
    (g.board.count (some Player.O) ≤ 3 ∧
      g.board.count (some Player.O) ≤ g.o_moves.length ∧ g.o_moves.length ≤ 3) ∧
    ¬(g.game_over = true ∧ g.winner = none) := by
  obtain ⟨_, ⟨_, hxlen, _, hxcnt⟩, ⟨_, holen, _, hocnt⟩, hwin⟩ := ndInv_reachable h
  refine ⟨⟨by omega, by omega, hxlen⟩, ⟨by omega, by omega, holen⟩, ?_⟩
  rintro ⟨hover, hnone⟩
  exact hwin hover hnone

theorem C5_no_draw_invariants_witness :
    NDGame.reset.board.count (some Player.X) ≤ 3 ∧
    ¬(NDGame.reset.game_over = true ∧ NDGame.reset.winner = none) :=
  ⟨(C5_no_draw_invariants NDGame.reset NDReachable.init).1.1,
   (C5_no_draw_invariants NDGame.reset NDReachable.init).2.2⟩

/-! ## Claim C6: No-Draw FIFO eviction -/

theorem cellAt_ge_length {b : Board} {i : Nat} (h : b.length ≤ i) :
    cellAt b i = none := by
  rw [cellAt, List.getD_eq_getElem?_getD, List.getElem?_eq_none h]
  rfl

theorem cellAt_set_none_self (b : Board) (i : Nat) :
    cellAt (b.set i none) i = none := by
  by_cases h : i < b.length
  · exact cellAt_set_self _ h
  · push_neg at h
    rw [List.set_eq_of_length_le h]
    exact cellAt_ge_length h

theorem ndExample_reachable : NDReachable ndExample := by
  have h1 := NDReachable.step 0 NDReachable.init (by decide)
  have h2 := NDReachable.step 1 h1 (by decide)
  have h3 := NDReachable.step 2 h2 (by decide)
  have h4 := NDReachable.step 3 h3 (by decide)
  have h5 := NDReachable.step 4 h4 (by decide)
  have h6 := NDReachable.step 5 h5 (by decide)
  have he : ((((((NDGame.reset.make_move 0).2.make_move 1).2.make_move 2).2.make_move
      3).2.make_move 4).2.make_move 5).2 = ndExample := by decide
  exact he ▸ h6

/-- C6 (amended): in any reachable No-Draw state whose mover is at capacity
with history [m0, m1, m2], a valid move to `position` removes m0 from the
history and appends the position; the vacated front cell m0 becomes Empty
whenever the move is not itself placed on m0 (placing on m0 — which
is-valid-move allows — immediately re-occupies that cell). -/
theorem C6_fifo_eviction (g : NDGame) (position : Int) (m0 m1 m2 : Nat)
    (_hr : NDReachable g)
    (hh : g.playerMoves g.current_player = [m0, m1, m2])
    (hv : g.is_valid_move position = true) :
    (g.make_move position).2.playerMoves g.current_player =
      [m1, m2, position.toNat] ∧
    (position.toNat ≠ m0 → cellAt (g.make_move position).2.board m0 = none) := by
  have hev : evictPlace g.board g.current_player position.toNat
      (g.playerMoves g.current_player) =
      ((g.board.set m0 none).set position.toNat (some g.current_player),
        [m1, m2, position.toNat]) := by
    rw [hh]
    unfold evictPlace
    rw [if_pos (by simp [MAX_MARKS])]
    rfl
  have hcell : position.toNat ≠ m0 →
      cellAt ((g.board.set m0 none).set position.toNat (some g.current_player))
        m0 = none := by
    intro hne
    rw [cellAt_set_ne _ hne]
    exact cellAt_set_none_self g.board m0
  unfold NDGame.make_move
  rw [hv]
  simp only [Bool.not_true, Bool.false_eq_true, if_false]
  rw [hev]
  cases hp : g.current_player with
  | X =>
    rw [hp] at hcell
    by_cases hw : check_winner
        ((g.board.set m0 none).set position.toNat (some Player.X)) Player.X = true
    · rw [if_pos hw]
      exact ⟨by simp [NDGame.setPlayerMoves, NDGame.playerMoves], hcell⟩
    · rw [if_neg hw]
      exact ⟨by simp [NDGame.setPlayerMoves, NDGame.playerMoves], hcell⟩
  | O =>
    rw [hp] at hcell
    by_cases hw : check_winner
        ((g.board.set m0 none).set position.toNat (some Player.O)) Player.O = true
    · rw [if_pos hw]
      exact ⟨by simp [NDGame.setPlayerMoves, NDGame.playerMoves], hcell⟩
    · rw [if_neg hw]
      exact ⟨by simp [NDGame.setPlayerMoves, NDGame.playerMoves], hcell⟩

/-- C6 counterexample to the unconditional claim: from the reachable state
ndExample (X history [0,2,4] at capacity), X validly plays position 0 — its
own oldest cell — and afterwards cell 0 holds X's new mark, not Empty. -/
theorem C6_counterexample_replay_oldest :
    NDReachable ndExample ∧
    ndExample.x_moves = [0, 2, 4] ∧
    ndExample.current_player = Player.X ∧
    ndExample.is_valid_move 0 = true ∧
    cellAt (ndExample.make_move 0).2.board 0 ≠ none :=
  ⟨ndExample_reachable, rfl, rfl, by decide, by decide⟩

/-- Witness for C6 on the spec's scripted sequence: from ndExample
(X history [0,2,4]), X plays 6; cell 0 becomes Empty and the history
becomes [2,4,6]. -/
theorem C6_fifo_eviction_witness :
    (ndExample.make_move 6).2.playerMoves ndExample.current_player = [2, 4, 6] ∧
    cellAt (ndExample.make_move 6).2.board 0 = none := by
  have h := C6_fifo_eviction ndExample 6 0 2 4 ndExample_reachable (by decide) (by decide)
  exact ⟨by simpa using h.1, h.2 (by decide)⟩

/-! ## Hard No-Draw AI: structure of the defective top-level loop -/

theorem mem_insertByKey {x a : Nat} {l : List Nat} :
    x ∈ insertByKey a l ↔ x = a ∨ x ∈ l := by
  induction l with
  | nil => simp [insertByKey]
  | cons y ys ih =>
    unfold insertByKey
    by_cases hk : orderKey a ≤ orderKey y
    · rw [if_pos hk]
      simp
    · rw [if_neg hk]
      simp only [List.mem_cons, ih]
      tauto

theorem mem_order_moves {x : Nat} {l : List Nat} :
    x ∈ order_moves l ↔ x ∈ l := by
  unfold order_moves
  induction l with
  | nil => simp
  | cons y ys ih =>
    simp only [List.foldr_cons, mem_insertByKey, List.mem_cons, ih]

theorem mem_range_of_mem_emptyCells {b : Board} {i : Nat}
    (h : i ∈ emptyCells b) : i < 9 := by
  have := (List.mem_filter.mp h).1
  simpa using this

theorem cand_of_mem_available {b : Board} {moves : List Nat} {pos : Nat}
    (h : pos ∈ available_moves_no_draw b moves) :
    pos ∈ emptyCells b ∨
      (moves.length ≥ MAX_MARKS ∧ moves.head? = some pos) := by
  unfold available_moves_no_draw at h
  rw [mem_order_moves] at h
  by_cases hcap : moves.length ≥ MAX_MARKS
  · rw [if_pos hcap] at h
    cases hm : moves with
    | nil =>
      rw [hm] at hcap
      simp [MAX_MARKS] at hcap
    | cons old rest =>
      rw [hm] at h
      dsimp only at h
      by_cases hmem : old ∈ emptyCells b
      · rw [if_pos hmem] at h
        exact Or.inl h
      · rw [if_neg hmem] at h
        rcases List.mem_append.mp h with h | h
        · exact Or.inl h
        · have hpo : pos = old := List.mem_singleton.mp h
          subst hpo
          exact Or.inr ⟨hm ▸ hcap, by simp [hm]⟩
  · rw [if_neg hcap] at h
    exact Or.inl h

theorem simStep_eq_cap {b : Board} {p : Player} {pos m0 : Nat} {rest : List Nat}
    (hcap : (m0 :: rest).length ≥ MAX_MARKS) :
    simStep b p pos (m0 :: rest) =
      (some m0, (b.set m0 none).set pos (some p), rest) := by
  unfold simStep
  rw [if_pos hcap]

theorem simStep_eq_nocap {b : Board} {p : Player} {pos : Nat} {moves : List Nat}
    (hcap : ¬moves.length ≥ MAX_MARKS) :
    simStep b p pos moves = (none, b.set pos (some p), moves) := by
  unfold simStep
  rw [if_neg hcap]

/-- The per-candidate undo in the search loops exactly restores the board,
whenever the histories are consistent with the board and the candidate is an
empty cell or the mover's oldest mark. -/
theorem simUndo_simStep {b : Board} {p : Player} {pos : Nat} {moves : List Nat}
    (hmi : MovesInv b moves p)
    (hca : cellAt b pos = none ∨
      (moves.length ≥ MAX_MARKS ∧ moves.head? = some pos)) :
    simUndo (simStep b p pos moves).2.1 p pos (simStep b p pos moves).1 = b := by
  by_cases hcap : moves.length ≥ MAX_MARKS
  · obtain ⟨m0, rest, rfl⟩ : ∃ a t, moves = a :: t := by
      cases moves with
      | nil => simp [MAX_MARKS] at hcap
      | cons a t => exact ⟨a, t, rfl⟩
    have hm0cell : cellAt b m0 = some p :=
      hmi.2 m0 (List.mem_cons_self m0 rest)
    rw [simStep_eq_cap hcap]
    unfold simUndo
    dsimp only
    by_cases hpm : pos = m0
    · subst hpm
      rw [List.set_set, List.set_set, List.set_set]
      exact set_cellAt_self hm0cell
    · have hposnone : cellAt b pos = none := by
        rcases hca with hc | ⟨_, hh⟩
        · exact hc
        · exact absurd (by simpa using hh.symm) hpm
      rw [List.set_set]
      rw [List.set_comm none none b (fun hc => hpm hc.symm)]
      rw [List.set_set]
      have h1 : cellAt (b.set pos none) m0 = some p := by
        rw [cellAt_set_ne _ (fun hc => hpm hc)]
        exact hm0cell
      rw [set_cellAt_self h1]
      exact set_cellAt_self hposnone
  · have hposnone : cellAt b pos = none := by
      rcases hca with hc | ⟨hc, _⟩
      · exact hc
      · exact absurd hc hcap
    rw [simStep_eq_nocap hcap]
    unfold simUndo
    dsimp only
    rw [List.set_set]
    exact set_cellAt_self hposnone

/-- The mover's history copy updated by the simulation step stays consistent
with the simulated board. -/
theorem movesInv_simStep_self {b : Board} {p : Player} {pos : Nat}
    {moves : List Nat} (hmi : MovesInv b moves p)
    (hca : cellAt b pos = none ∨
      (moves.length ≥ MAX_MARKS ∧ moves.head? = some pos))
    (hpos : pos < b.length) :
    MovesInv (simStep b p pos moves).2.1 ((simStep b p pos moves).2.2 ++ [pos]) p := by
  obtain ⟨hnd, hmem⟩ := hmi
  by_cases hcap : moves.length ≥ MAX_MARKS
  · obtain ⟨m0, rest, rfl⟩ : ∃ a t, moves = a :: t := by
      cases moves with
      | nil => simp [MAX_MARKS] at hcap
      | cons a t => exact ⟨a, t, rfl⟩
    rw [simStep_eq_cap hcap]
    have hposrest : pos ∉ rest := by
      intro hmem'
      by_cases hpm : pos = m0
      · exact (List.nodup_cons.mp hnd).1 (hpm ▸ hmem')
      · have hcell := hmem pos (List.mem_cons_of_mem _ hmem')
        rcases hca with hc | ⟨_, hh⟩
        · rw [hc] at hcell
          exact Option.noConfusion hcell
        · exact hpm (by simpa using hh.symm)
    constructor
    · rw [List.nodup_append]
      exact ⟨(List.nodup_cons.mp hnd).2, by simp,
        fun x hx hxp => hposrest ((List.mem_singleton.mp hxp) ▸ hx)⟩
    · intro i hi
      rcases List.mem_append.mp hi with hi | hi
      · have hipos : i ≠ pos := fun hc => hposrest (hc ▸ hi)
        have him0 : i ≠ m0 := fun hc => (List.nodup_cons.mp hnd).1 (hc ▸ hi)
        rw [cellAt_set_ne _ (fun hc => hipos hc.symm),
          cellAt_set_ne _ (fun hc => him0 hc.symm)]
        exact hmem i (List.mem_cons_of_mem _ hi)
      · rw [List.mem_singleton.mp hi]
        exact cellAt_set_self _ (by simpa using hpos)
  · rw [simStep_eq_nocap hcap]
    have hposnone : cellAt b pos = none := by
      rcases hca with hc | ⟨hc, _⟩
      · exact hc
      · exact absurd hc hcap
    have hposmoves : pos ∉ moves := by
      intro hmem'
      have := hmem pos hmem'
      rw [hposnone] at this
      exact Option.noConfusion this
    constructor
    · rw [List.nodup_append]
      exact ⟨hnd, by simp,
        fun x hx hxp => hposmoves ((List.mem_singleton.mp hxp) ▸ hx)⟩
    · intro i hi
      rcases List.mem_append.mp hi with hi | hi
      · have hipos : i ≠ pos := fun hc => hposmoves (hc ▸ hi)
        rw [cellAt_set_ne _ (fun hc => hipos hc.symm)]
        exact hmem i hi
      · rw [List.mem_singleton.mp hi]
        exact cellAt_set_self _ hpos

/-- The opponent's history stays consistent with the simulated board. -/
theorem movesInv_simStep_other {b : Board} {p q : Player} {pos : Nat}
    {moves movesq : List Nat} (hpq : p ≠ q)
    (hmip : MovesInv b moves p) (hmiq : MovesInv b movesq q)
    (hca : cellAt b pos = none ∨
      (moves.length ≥ MAX_MARKS ∧ moves.head? = some pos)) :
    MovesInv (simStep b p pos moves).2.1 movesq q := by
  obtain ⟨hndq, hmemq⟩ := hmiq
  have hposq : ∀ i ∈ movesq, i ≠ pos := by
    intro i hi hc
    have hcell := hmemq i hi
    subst hc
    rcases hca with hcc | ⟨hcap, hh⟩
    · rw [hcc] at hcell
      exact Option.noConfusion hcell
    · obtain ⟨m0, rest, rfl⟩ : ∃ a t, moves = a :: t := by
        cases moves with
        | nil => simp [MAX_MARKS] at hcap
        | cons a t => exact ⟨a, t, rfl⟩
      have : i = m0 := by simpa using hh.symm
      have := hmip.2 m0 (List.mem_cons_self m0 rest)
      rw [← ‹i = m0›] at this
      rw [this] at hcell
      exact hpq (Option.some.inj hcell)
  by_cases hcap : moves.length ≥ MAX_MARKS
  · obtain ⟨m0, rest, rfl⟩ : ∃ a t, moves = a :: t := by
      cases moves with
      | nil => simp [MAX_MARKS] at hcap
      | cons a t => exact ⟨a, t, rfl⟩
    have hm0cell : cellAt b m0 = some p :=
      hmip.2 m0 (List.mem_cons_self m0 rest)
    rw [simStep_eq_cap hcap]
    refine ⟨hndq, fun i hi => ?_⟩
    have him0 : i ≠ m0 := by
      intro hc
      have := hmemq i hi
      rw [hc, hm0cell] at this
      exact hpq (Option.some.inj this)
    rw [cellAt_set_ne _ (fun hc => (hposq i hi) hc.symm),
      cellAt_set_ne _ (fun hc => him0 hc.symm)]
    exact hmemq i hi
  · rw [simStep_eq_nocap hcap]
    refine ⟨hndq, fun i hi => ?_⟩
    rw [cellAt_set_ne _ (fun hc => (hposq i hi) hc.symm)]
    exact hmemq i hi

theorem simStep_board_length (b : Board) (p : Player) (pos : Nat)
    (moves : List Nat) : (simStep b p pos moves).2.1.length = b.length := by
  unfold simStep
  split
  · split <;> simp
  · simp

theorem cand_pos_lt {b : Board} {moves : List Nat} {p : Player} {pos : Nat}
    (hmi : MovesInv b moves p) (hlen : b.length = 9)
    (hca : pos ∈ emptyCells b ∨
      (moves.length ≥ MAX_MARKS ∧ moves.head? = some pos)) :
    pos < b.length := by
  rcases hca with hc | ⟨hcap, hh⟩
  · rw [hlen]
    exact mem_range_of_mem_emptyCells hc
  · obtain ⟨m0, rest, rfl⟩ : ∃ a t, moves = a :: t := by
      cases moves with
      | nil => simp [MAX_MARKS] at hcap
      | cons a t => exact ⟨a, t, rfl⟩
    have hpm : pos = m0 := by simpa using hh.symm
    subst hpm
    exact cellAt_lt_length (hmi.2 pos (List.mem_cons_self pos rest))

theorem cand_weaken {b : Board} {moves : List Nat} {pos : Nat}
    (hca : pos ∈ emptyCells b ∨
      (moves.length ≥ MAX_MARKS ∧ moves.head? = some pos)) :
    cellAt b pos = none ∨
      (moves.length ≥ MAX_MARKS ∧ moves.head? = some pos) := by
  rcases hca with hc | hc
  · exact Or.inl (cellAt_of_mem_emptyCells hc)
  · exact Or.inr hc

/-- The maximizing loop of minimax_no_draw hands back the board it was given
(every candidate is simulated and then undone). -/
theorem loopMaxND_board {xm : List Nat}
    (recurse : Board → List Nat → Int → Int → TTable → Int × Board × TTable)
    (depth : Nat) (om : List Nat) (beta : Int)
    (hrec : ∀ b' om' α' β' t', b'.length = 9 → MovesInv b' xm Player.X →
      MovesInv b' om' Player.O → (recurse b' om' α' β' t').2.1 = b') :
    ∀ (list : List Nat) (b : Board) (tbl : TTable) (best alpha : Int),
      b.length = 9 → MovesInv b xm Player.X → MovesInv b om Player.O →
      (∀ pos ∈ list, pos ∈ emptyCells b ∨
        (om.length ≥ MAX_MARKS ∧ om.head? = some pos)) →
      (loopMaxND recurse depth om beta list b tbl best alpha).2.1 = b := by
  intro list
  induction list with
  | nil =>
    intro b tbl best alpha _ _ _ _
    rfl
  | cons pos rest ih =>
    intro b tbl best alpha hlen hx ho hca
    have hcand := hca pos (List.mem_cons_self pos rest)
    have hpos := cand_pos_lt ho hlen hcand
    have hscore : ∀ t0 : TTable,
        (if check_winner (simStep b Player.O pos om).2.1 Player.O
          then ((10 : Int) - depth, (simStep b Player.O pos om).2.1, t0)
          else recurse (simStep b Player.O pos om).2.1
            ((simStep b Player.O pos om).2.2 ++ [pos]) alpha beta t0).2.1 =
          (simStep b Player.O pos om).2.1 := by
      intro t0
      split
      · rfl
      · exact hrec _ _ _ _ _
          (by rw [simStep_board_length]; exact hlen)
          (movesInv_simStep_other (by simp) ho hx (cand_weaken hcand))
          (movesInv_simStep_self ho (cand_weaken hcand) hpos)
    have hundo := simUndo_simStep ho (cand_weaken hcand)
    rw [loopMaxND]
    simp only [hscore tbl, hundo]
    split <;> split
    · rfl
    · exact ih b _ _ _ hlen hx ho
        (fun q hq => hca q (List.mem_cons_of_mem _ hq))
    · rfl
    · exact ih b _ _ _ hlen hx ho
        (fun q hq => hca q (List.mem_cons_of_mem _ hq))

/-- The minimizing loop of minimax_no_draw hands back the board it was
given. -/
theorem loopMinND_board {om : List Nat}
    (recurse : Board → List Nat → Int → Int → TTable → Int × Board × TTable)
    (depth : Nat) (xm : List Nat) (alpha : Int)
    (hrec : ∀ b' xm' α' β' t', b'.length = 9 → MovesInv b' xm' Player.X →
      MovesInv b' om Player.O → (recurse b' xm' α' β' t').2.1 = b') :
    ∀ (list : List Nat) (b : Board) (tbl : TTable) (best beta : Int),
      b.length = 9 → MovesInv b xm Player.X → MovesInv b om Player.O →
      (∀ pos ∈ list, pos ∈ emptyCells b ∨
        (xm.length ≥ MAX_MARKS ∧ xm.head? = some pos)) →
      (loopMinND recurse depth xm alpha list b tbl best beta).2.1 = b := by
  intro list
  induction list with
  | nil =>
    intro b tbl best beta _ _ _ _
    rfl
  | cons pos rest ih =>
    intro b tbl best beta hlen hx ho hca
    have hcand := hca pos (List.mem_cons_self pos rest)
    have hpos := cand_pos_lt hx hlen hcand
    have hscore : ∀ t0 : TTable,
        (if check_winner (simStep b Player.X pos xm).2.1 Player.X
          then ((depth : Int) - 10, (simStep b Player.X pos xm).2.1, t0)
          else recurse (simStep b Player.X pos xm).2.1
            ((simStep b Player.X pos xm).2.2 ++ [pos]) alpha beta t0).2.1 =
          (simStep b Player.X pos xm).2.1 := by
      intro t0
      split
      · rfl
      · exact hrec _ _ _ _ _
          (by rw [simStep_board_length]; exact hlen)
          (movesInv_simStep_self hx (cand_weaken hcand) hpos)
          (movesInv_simStep_other (by simp) hx ho (cand_weaken hcand))
    have hundo := simUndo_simStep hx (cand_weaken hcand)
    rw [loopMinND]
    simp only [hscore tbl, hundo]
    split <;> split
    · rfl
    · exact ih b _ _ _ hlen hx ho
        (fun q hq => hca q (List.mem_cons_of_mem _ hq))
    · rfl
    · exact ih b _ _ _ hlen hx ho
        (fun q hq => hca q (List.mem_cons_of_mem _ hq))

/-- minimax_no_draw returns the board in exactly the state it received it:
all simulation steps are undone on every path. -/
theorem minimax_no_draw_board :
    ∀ (fuel : Nat) (b : Board) (depth : Nat) (mx : Bool) (xm om : List Nat)
      (md : Nat) (alpha beta : Int) (tbl : TTable),
      b.length = 9 → MovesInv b xm Player.X → MovesInv b om Player.O →
      (minimax_no_draw fuel b depth mx xm om md alpha beta tbl).2.1 = b := by
  intro fuel
  induction fuel with
  | zero =>
    intro b depth mx xm om md alpha beta tbl _ _ _
    unfold minimax_no_draw
    dsimp only
    repeat' split
    all_goals rfl
  | succ fuel ih =>
    intro b depth mx xm om md alpha beta tbl hlen hx ho
    unfold minimax_no_draw
    dsimp only
    repeat' split
    all_goals try rfl
    · exact loopMaxND_board _ depth om beta
        (fun b' om' α' β' t' hl hx' ho' =>
          ih b' (depth + 1) false xm om' md α' β' t' hl hx' ho')
        _ b tbl (-1000) alpha hlen hx ho
        (fun pos hpos => cand_of_mem_available hpos)
    · exact loopMinND_board _ depth xm alpha
        (fun b' xm' α' β' t' hl hx' ho' =>
          ih b' (depth + 1) true xm' om md α' β' t' hl hx' ho')
        _ b tbl 1000 beta hlen hx ho
        (fun pos hpos => cand_of_mem_available hpos)

/-- The defective top-level loop never updates best_move: whatever the
candidate scores are, it returns its initial best_move argument. -/
theorem loopTopND_move (xm om : List Nat) (md : Nat) (beta : Int) :
    ∀ (list : List Nat) (b : Board) (tbl : TTable) (bs : Int) (bm : Nat)
      (alpha : Int), (loopTopND xm om md beta list b tbl bs bm alpha).1 = bm := by
  intro list
  induction list with
  | nil =>
    intro b tbl bs bm alpha
    rfl
  | cons pos rest ih =>
    intro b tbl bs bm alpha
    rw [loopTopND]
    exact ih _ _ _ _ _

theorem mem_emptyCells_set_of_ne {b : Board} {q pos : Nat} (v : Cell)
    (hq : q ∈ emptyCells b) (hne : q ≠ pos) :
    q ∈ emptyCells (b.set pos v) := by
  rw [emptyCells, List.mem_filter]
  refine ⟨(List.mem_filter.mp hq).1, ?_⟩
  rw [cellAt_set_ne _ (fun hc => hne hc.symm)]
  exact (List.mem_filter.mp hq).2

/-- The defective top-level loop never undoes its simulations either: when
O's history is below capacity, the final board carries an O mark on every
candidate cell. -/
theorem loopTopND_board_noevict {xm om : List Nat} (md : Nat) (beta : Int)
    (hom : ¬om.length ≥ MAX_MARKS) :
    ∀ (list : List Nat) (b : Board) (tbl : TTable) (bs : Int) (bm : Nat)
      (alpha : Int),
      b.length = 9 → MovesInv b xm Player.X → MovesInv b om Player.O →
      (∀ pos ∈ list, pos ∈ emptyCells b) → list.Nodup →
      (loopTopND xm om md beta list b tbl bs bm alpha).2.1 =
        list.foldl (fun bb pos => bb.set pos (some Player.O)) b := by
  intro list
  induction list with
  | nil =>
    intro b tbl bs bm alpha _ _ _ _ _
    rfl
  | cons pos rest ih =>
    intro b tbl bs bm alpha hlen hx ho hemp hnd
    have hpos9 : pos < 9 := mem_range_of_mem_emptyCells (hemp pos (List.mem_cons_self pos rest))
    have hposnone := cellAt_of_mem_emptyCells (hemp pos (List.mem_cons_self pos rest))
    have hstep : simStep b Player.O pos om = (none, b.set pos (some Player.O), om) :=
      simStep_eq_nocap hom
    have hlen2 : (b.set pos (some Player.O)).length = 9 := by
      rw [List.length_set]
      exact hlen
    have hx2 : MovesInv (b.set pos (some Player.O)) xm Player.X := by
      refine ⟨hx.1, fun i hi => ?_⟩
      have hine : i ≠ pos := by
        intro hc
        have := hx.2 i hi
        rw [hc, hposnone] at this
        exact Option.noConfusion this
      rw [cellAt_set_ne _ (fun hc => hine hc.symm)]
      exact hx.2 i hi
    have ho2 : MovesInv (b.set pos (some Player.O)) om Player.O := by
      refine ⟨ho.1, fun i hi => ?_⟩
      have hine : i ≠ pos := by
        intro hc
        have := ho.2 i hi
        rw [hc, hposnone] at this
        exact Option.noConfusion this
      rw [cellAt_set_ne _ (fun hc => hine hc.symm)]
      exact ho.2 i hi
    have ho2m : MovesInv (b.set pos (some Player.O)) (om ++ [pos]) Player.O := by
      have h0 := movesInv_simStep_self ho (Or.inl hposnone) (by rw [hlen]; exact hpos9)
      rwa [hstep] at h0
    have hscore :
        (if check_winner (b.set pos (some Player.O)) Player.O
          then ((10 : Int), b.set pos (some Player.O), tbl)
          else minimax_no_draw 9 (b.set pos (some Player.O)) 0 false xm
            (om ++ [pos]) md alpha beta tbl).2.1 = b.set pos (some Player.O) := by
      split
      · rfl
      · exact minimax_no_draw_board 9 _ 0 false xm _ md alpha beta tbl hlen2 hx2 ho2m
    rw [loopTopND]
    simp only [hstep]
    rw [hscore]
    rw [List.foldl_cons]
    exact ih (b.set pos (some Player.O)) _ _ _ _ hlen2 hx2 ho2
      (fun q hq => mem_emptyCells_set_of_ne _ (hemp q (List.mem_cons_of_mem _ hq))
        (fun hc => (List.nodup_cons.mp hnd).1 (hc ▸ hq)))
      (List.nodup_cons.mp hnd).2

/-! ## Claims C1 and C2: the defective search loop of get_hard_move_no_draw -/

/-- C1: on a board where X threatens an immediate win at 2 (rows 0-1-2),
get_hard_move_no_draw ignores every computed score and returns the first
ordered candidate — the centre, index 4 — instead of the argmax candidate. -/
theorem C1_returns_first_candidate_not_argmax :
    (get_hard_move_no_draw
      [some Player.X, some Player.X, none, some Player.O, none, none, none,
       none, none] [0, 1] [3]).1 = some 4 := by
  have hav : available_moves_no_draw
      [some Player.X, some Player.X, none, some Player.O, none, none, none,
       none, none] [3] = [4, 2, 6, 8, 5, 7] := by decide
  have hfp : fastPathND [3] [4, 2, 6, 8, 5, 7]
      [some Player.X, some Player.X, none, some Player.O, none, none, none,
       none, none] =
      (none, [some Player.X, some Player.X, none, some Player.O, none, none,
       none, none, none]) := by decide
  simp only [get_hard_move_no_draw, hav, hfp]
  rw [if_neg (by decide : ¬(([4, 2, 6, 8, 5, 7] : List Nat).isEmpty = true))]
  dsimp only
  rw [loopTopND_move]

/-- C2: the same call mutates the board it was handed: the caller's list
comes back with an O mark left on every top-level candidate cell. -/
theorem C2_search_loop_mutates_caller_board :
    (get_hard_move_no_draw
      [some Player.X, some Player.X, none, some Player.O, none, none, none,
       none, none] [0, 1] [3]).2 =
      [some Player.X, some Player.X, some Player.O, some Player.O,
       some Player.O, some Player.O, some Player.O, some Player.O,
       some Player.O] ∧
    [some Player.X, some Player.X, some Player.O, some Player.O,
       some Player.O, some Player.O, some Player.O, some Player.O,
       some Player.O] ≠
      [some Player.X, some Player.X, none, some Player.O, none, none, none,
       none, none] := by
  have hav : available_moves_no_draw
      [some Player.X, some Player.X, none, some Player.O, none, none, none,
       none, none] [3] = [4, 2, 6, 8, 5, 7] := by decide
  have hfp : fastPathND [3] [4, 2, 6, 8, 5, 7]
      [some Player.X, some Player.X, none, some Player.O, none, none, none,
       none, none] =
      (none, [some Player.X, some Player.X, none, some Player.O, none, none,
       none, none, none]) := by decide
  refine ⟨?_, by decide⟩
  simp only [get_hard_move_no_draw, hav, hfp]
  rw [if_neg (by decide : ¬(([4, 2, 6, 8, 5, 7] : List Nat).isEmpty = true))]
  dsimp only
  rw [loopTopND_board_noevict _ _ (by decide) _ _ _ _ _ _ (by decide)
    ⟨by decide, by decide⟩ ⟨by decide, by decide⟩ (by decide) (by decide)]
  decide

/-! ## Claim C3: the standard hard AI never lets X win

The argument: the minimax value of a position (for the side to move) keeps
a fixed sign however the depth counter is shifted and however much spare
fuel is supplied; O's argmax choice in get_hard_move preserves
non-negativity of that value; and the initial position has non-negative
value for the X-to-move side, certified by the explicit drawing strategy
`sigma` through the bounded checker `secure`. -/

theorem foldl_congr_fn {α β : Type} {l : List α} {f g : β → α → β} {i : β}
    (h : ∀ x ∈ l, ∀ acc, f acc x = g acc x) : l.foldl f i = l.foldl g i := by
  induction l generalizing i with
  | nil => rfl
  | cons a t ih =>
    rw [List.foldl_cons, List.foldl_cons, h a (List.mem_cons_self a t) i]
    exact ih fun x hx acc => h x (List.mem_cons_of_mem _ hx) acc

theorem minimax_winO {fuel : Nat} {b : Board} {d : Nat} {mx : Bool}
    (h : check_winner b Player.O = true) :
    minimax fuel b d mx = 10 - (d : Int) := by
  unfold minimax
  rw [if_pos h]

theorem minimax_winX {fuel : Nat} {b : Board} {d : Nat} {mx : Bool}
    (hO : check_winner b Player.O = false) (h : check_winner b Player.X = true) :
    minimax fuel b d mx = (d : Int) - 10 := by
  unfold minimax
  rw [if_neg (by simp [hO]), if_pos h]

theorem minimax_full {fuel : Nat} {b : Board} {d : Nat} {mx : Bool}
    (hO : check_winner b Player.O = false) (hX : check_winner b Player.X = false)
    (h : is_board_full b = true) :
    minimax fuel b d mx = 0 := by
  unfold minimax
  rw [if_neg (by simp [hO]), if_neg (by simp [hX]), if_pos h]

theorem minimax_zero {b : Board} {d : Nat} {mx : Bool}
    (hO : check_winner b Player.O = false) (hX : check_winner b Player.X = false)
    (hf : is_board_full b = false) :
    minimax 0 b d mx = 0 := by
  unfold minimax
  rw [if_neg (by simp [hO]), if_neg (by simp [hX]), if_neg (by simp [hf])]

theorem minimax_succ_max {fuel : Nat} {b : Board} {d : Nat}
    (hO : check_winner b Player.O = false) (hX : check_winner b Player.X = false)
    (hf : is_board_full b = false) :
    minimax (fuel + 1) b d true =
      (emptyCells b).foldl (fun best pos =>
        max best (minimax fuel (b.set pos (some Player.O)) (d + 1) false))
        (-1000) := by
  conv =>
    lhs
    unfold minimax
  rw [if_neg (by simp [hO]), if_neg (by simp [hX]), if_neg (by simp [hf])]
  rfl

theorem minimax_succ_min {fuel : Nat} {b : Board} {d : Nat}
    (hO : check_winner b Player.O = false) (hX : check_winner b Player.X = false)
    (hf : is_board_full b = false) :
    minimax (fuel + 1) b d false =
      (emptyCells b).foldl (fun best pos =>
        min best (minimax fuel (b.set pos (some Player.X)) (d + 1) true))
        1000 := by
  conv =>
    lhs
    unfold minimax
  rw [if_neg (by simp [hO]), if_neg (by simp [hX]), if_neg (by simp [hf])]
  rfl

/-- check_winner as an existence statement over the eight lines. -/
theorem check_winner_iff {b : Board} {p : Player} :
    check_winner b p = true ↔
      ∃ c ∈ WINNING_COMBINATIONS, cellAt b c.1 = some p ∧
        cellAt b c.2.1 = some p ∧ cellAt b c.2.2 = some p := by
  unfold check_winner
  rw [List.any_eq_true]
  constructor
  · rintro ⟨c, hc, hcc⟩
    simp only [Bool.and_eq_true, beq_iff_eq] at hcc
    exact ⟨c, hc, hcc.1.1, hcc.1.2, hcc.2⟩
  · rintro ⟨c, hc, h1, h2, h3⟩
    exact ⟨c, hc, by simp [h1, h2, h3]⟩

/-- Placing one player's mark on an empty cell cannot change whether the
other player has a completed line. -/
theorem check_winner_set_ne {b : Board} {p q : Player} {pos : Nat}
    (hpq : p ≠ q) (hcell : cellAt b pos = none) :
    check_winner (b.set pos (some p)) q = check_winner b q := by
  by_cases hlt : pos < b.length
  · have hcells : ∀ i, cellAt (b.set pos (some p)) i = some q → cellAt b i = some q := by
      intro i hi
      by_cases hip : i = pos
      · subst hip
        rw [cellAt_set_self _ hlt] at hi
        exact absurd (Option.some.inj hi) hpq
      · rwa [cellAt_set_ne _ (fun hc => hip hc.symm)] at hi
    have hcells' : ∀ i, cellAt b i = some q → cellAt (b.set pos (some p)) i = some q := by
      intro i hi
      by_cases hip : i = pos
      · subst hip
        rw [hcell] at hi
        exact Option.noConfusion hi
      · rwa [cellAt_set_ne _ (fun hc => hip hc.symm)]
    cases hcw : check_winner b q with
    | true =>
      obtain ⟨c, hc, h1, h2, h3⟩ := check_winner_iff.mp hcw
      exact check_winner_iff.mpr ⟨c, hc, hcells' _ h1, hcells' _ h2, hcells' _ h3⟩
    | false =>
      cases hcw' : check_winner (b.set pos (some p)) q with
      | true =>
        obtain ⟨c, hc, h1, h2, h3⟩ := check_winner_iff.mp hcw'
        have := check_winner_iff.mpr ⟨c, hc, hcells _ h1, hcells _ h2, hcells _ h3⟩
        rw [hcw] at this
        exact Bool.noConfusion this
      | false => rfl
  · push_neg at hlt
    rw [List.set_eq_of_length_le hlt]

theorem mem_emptyCells_iff {b : Board} {i : Nat} :
    i ∈ emptyCells b ↔ i < 9 ∧ cellAt b i = none := by
  rw [emptyCells, List.mem_filter, List.mem_range]
  simp

theorem length_emptyCells_le (b : Board) : (emptyCells b).length ≤ 9 := by
  have := List.length_filter_le (fun i => cellAt b i == none) (List.range 9)
  simpa using this

theorem cellAt_eq_getElem {b : Board} {i : Nat} (h : i < b.length) :
    cellAt b i = b[i] := by
  rw [cellAt, List.getD_eq_getElem?_getD, List.getElem?_eq_getElem h]
  rfl

theorem emptyCells_eq_nil_iff {b : Board} (hlen : b.length = 9) :
    emptyCells b = [] ↔ is_board_full b = true := by
  constructor
  · intro h
    rw [is_board_full, List.all_eq_true]
    intro c hc
    obtain ⟨i, hi, rfl⟩ := List.getElem_of_mem hc
    have hi9 : i < 9 := by omega
    have : i ∉ emptyCells b := by
      rw [h]
      exact List.not_mem_nil i
    rw [mem_emptyCells_iff] at this
    push_neg at this
    have hne := this hi9
    rw [cellAt_eq_getElem hi] at hne
    cases hcc : b[i] with
    | none => exact absurd hcc hne
    | some q => rfl
  · intro h
    rw [emptyCells, List.filter_eq_nil_iff]
    intro i hi
    rw [List.mem_range] at hi
    have hilen : i < b.length := by omega
    rw [is_board_full, List.all_eq_true] at h
    have := h (b[i]) (List.getElem_mem hilen)
    rw [beq_iff_eq, cellAt_eq_getElem hilen]
    intro hc
    rw [hc] at this
    exact Bool.noConfusion this

theorem filter_length_point {l : List Nat} (hnd : l.Nodup)
    {pf pf' : Nat → Bool} {pos : Nat}
    (hmem : pos ∈ l) (hp : pf pos = true) (hp' : pf' pos = false)
    (hagree : ∀ x, x ≠ pos → pf' x = pf x) :
    (l.filter pf').length + 1 = (l.filter pf).length := by
  induction l with
  | nil => cases hmem
  | cons a t ih =>
    rcases List.mem_cons.mp hmem with heq | hmem'
    · subst heq
      rw [List.filter_cons, List.filter_cons,
        if_neg (by rw [hp']; exact Bool.noConfusion), if_pos hp]
      have hfeq : t.filter pf' = t.filter pf := by
        apply List.filter_congr
        intro x hx
        exact hagree x (fun hc => (List.nodup_cons.mp hnd).1 (hc ▸ hx))
      rw [hfeq, List.length_cons]
    · have hane : a ≠ pos := fun hc => (List.nodup_cons.mp hnd).1 (hc ▸ hmem')
      have hstep := ih (List.nodup_cons.mp hnd).2 hmem'
      rw [List.filter_cons, List.filter_cons, hagree a hane]
      by_cases hpa : pf a = true
      · rw [if_pos hpa, if_pos hpa]
        simp only [List.length_cons]
        omega
      · rw [if_neg hpa, if_neg hpa]
        exact hstep

theorem emptyCells_set_length {b : Board} {pos : Nat} (hlen : b.length = 9)
    (hmem : pos ∈ emptyCells b) (p : Player) :
    (emptyCells (b.set pos (some p))).length + 1 = (emptyCells b).length := by
  have hpos9 := (mem_emptyCells_iff.mp hmem).1
  have hlt : pos < b.length := by omega
  apply filter_length_point (List.nodup_range 9)
  · rw [List.mem_range]
    exact hpos9
  · show (cellAt b pos == none) = true
    rw [(mem_emptyCells_iff.mp hmem).2]
    rfl
  · show (cellAt (b.set pos (some p)) pos == none) = false
    rw [cellAt_set_self _ hlt]
    rfl
  · intro x hx
    show (cellAt (b.set pos (some p)) x == none) =
      (cellAt b x == none)
    rw [cellAt_set_ne _ (fun hc => hx hc.symm)]

theorem foldl_max_nonneg_iff {α : Type} (f : α → Int) (l : List α) (init : Int) :
    0 ≤ l.foldl (fun acc x => max acc (f x)) init ↔
      0 ≤ init ∨ ∃ x ∈ l, 0 ≤ f x := by
  constructor
  · intro h
    by_contra hc
    push_neg at hc
    obtain ⟨h1, h2⟩ := hc
    have := foldl_max_le f l init (-1) (by omega)
      (fun x hx => by have := h2 x hx; omega)
    omega
  · rintro (h | ⟨x, hx, hfx⟩)
    · exact le_trans h (le_foldl_max f l init)
    · exact le_trans hfx (mem_le_foldl_max f hx init)

theorem foldl_min_nonneg_iff {α : Type} (f : α → Int) (l : List α) (init : Int) :
    0 ≤ l.foldl (fun acc x => min acc (f x)) init ↔
      0 ≤ init ∧ ∀ x ∈ l, 0 ≤ f x := by
  constructor
  · intro h
    exact ⟨le_trans h (foldl_min_le_init f l init),
      fun x hx => le_trans h (foldl_min_le_mem f hx init)⟩
  · rintro ⟨h1, h2⟩
    exact le_foldl_min f l init 0 h1 h2

theorem emptyCells_child_le {b : Board} {pos : Nat} {n : Nat}
    (hlen : b.length = 9) (hmem : pos ∈ emptyCells b) (p : Player)
    (h : (emptyCells b).length ≤ n + 1) :
    (emptyCells (b.set pos (some p))).length ≤ n := by
  have := emptyCells_set_length hlen hmem p
  omega

/-- The minimax value does not depend on the fuel, once the fuel covers the
number of empty cells. -/
theorem minimax_fuel_eq : ∀ (f₁ f₂ : Nat) (b : Board) (d : Nat) (mx : Bool),
    b.length = 9 → (emptyCells b).length ≤ f₁ → (emptyCells b).length ≤ f₂ →
    minimax f₁ b d mx = minimax f₂ b d mx := by
  intro f₁
  induction f₁ with
  | zero =>
    intro f₂ b d mx hlen h1 _h2
    have hnil : emptyCells b = [] := List.length_eq_zero.mp (Nat.le_zero.mp h1)
    have hfull := (emptyCells_eq_nil_iff hlen).mp hnil
    by_cases hO : check_winner b Player.O = true
    · rw [minimax_winO hO, minimax_winO hO]
    · rw [Bool.not_eq_true] at hO
      by_cases hX : check_winner b Player.X = true
      · rw [minimax_winX hO hX, minimax_winX hO hX]
      · rw [Bool.not_eq_true] at hX
        rw [minimax_full hO hX hfull, minimax_full hO hX hfull]
  | succ f ih =>
    intro f₂ b d mx hlen h1 h2
    by_cases hO : check_winner b Player.O = true
    · rw [minimax_winO hO, minimax_winO hO]
    · rw [Bool.not_eq_true] at hO
      by_cases hX : check_winner b Player.X = true
      · rw [minimax_winX hO hX, minimax_winX hO hX]
      · rw [Bool.not_eq_true] at hX
        by_cases hf : is_board_full b = true
        · rw [minimax_full hO hX hf, minimax_full hO hX hf]
        · rw [Bool.not_eq_true] at hf
          have hne : emptyCells b ≠ [] := by
            intro hc
            rw [(emptyCells_eq_nil_iff hlen).mp hc] at hf
            exact Bool.noConfusion hf
          have hpos : 1 ≤ (emptyCells b).length := by
            cases hcc : emptyCells b with
            | nil => exact absurd hcc hne
            | cons a t => simp [hcc]
          cases f₂ with
          | zero => omega
          | succ f₂' =>
            cases mx with
            | true =>
              rw [minimax_succ_max hO hX hf, minimax_succ_max hO hX hf]
              apply foldl_congr_fn
              intro x hx acc
              congr 1
              exact ih f₂' _ (d + 1) false (by rw [List.length_set]; exact hlen)
                (emptyCells_child_le hlen hx _ h1)
                (emptyCells_child_le hlen hx _ h2)
            | false =>
              rw [minimax_succ_min hO hX hf, minimax_succ_min hO hX hf]
              apply foldl_congr_fn
              intro x hx acc
              congr 1
              exact ih f₂' _ (d + 1) true (by rw [List.length_set]; exact hlen)
                (emptyCells_child_le hlen hx _ h1)
                (emptyCells_child_le hlen hx _ h2)

/-- Whether the minimax value is non-negative does not depend on the depth
offset, as long as the game can finish within depth 9. -/
theorem minimax_sign : ∀ (f : Nat) (b : Board) (d d' : Nat) (mx : Bool),
    b.length = 9 → (emptyCells b).length ≤ f →
    d + (emptyCells b).length ≤ 9 → d' + (emptyCells b).length ≤ 9 →
    (0 ≤ minimax f b d mx ↔ 0 ≤ minimax f b d' mx) := by
  intro f
  induction f with
  | zero =>
    intro b d d' mx hlen h1 hd hd'
    have hnil : emptyCells b = [] := List.length_eq_zero.mp (Nat.le_zero.mp h1)
    have hfull := (emptyCells_eq_nil_iff hlen).mp hnil
    have hd9 : d ≤ 9 := by rw [hnil] at hd; simpa using hd
    have hd9' : d' ≤ 9 := by rw [hnil] at hd'; simpa using hd'
    by_cases hO : check_winner b Player.O = true
    · rw [minimax_winO hO, minimax_winO hO]
      omega
    · rw [Bool.not_eq_true] at hO
      by_cases hX : check_winner b Player.X = true
      · rw [minimax_winX hO hX, minimax_winX hO hX]
        omega
      · rw [Bool.not_eq_true] at hX
        rw [minimax_full hO hX hfull, minimax_full hO hX hfull]
  | succ f ih =>
    intro b d d' mx hlen h1 hd hd'
    by_cases hO : check_winner b Player.O = true
    · rw [minimax_winO hO, minimax_winO hO]
      have hd9 : d ≤ 9 := by omega
      have hd9' : d' ≤ 9 := by omega
      omega
    · rw [Bool.not_eq_true] at hO
      by_cases hX : check_winner b Player.X = true
      · rw [minimax_winX hO hX, minimax_winX hO hX]
        have hd9 : d ≤ 9 := by omega
        have hd9' : d' ≤ 9 := by omega
        omega
      · rw [Bool.not_eq_true] at hX
        by_cases hf : is_board_full b = true
        · rw [minimax_full hO hX hf, minimax_full hO hX hf]
        · rw [Bool.not_eq_true] at hf
          cases mx with
          | true =>
            rw [minimax_succ_max hO hX hf, minimax_succ_max hO hX hf]
            rw [foldl_max_nonneg_iff, foldl_max_nonneg_iff]
            constructor
            · rintro (h | ⟨x, hx, hfx⟩)
              · omega
              · refine Or.inr ⟨x, hx, ?_⟩
                rw [← ih _ (d + 1) (d' + 1) false
                  (by rw [List.length_set]; exact hlen)
                  (emptyCells_child_le hlen hx _ h1)
                  (by have := emptyCells_set_length hlen hx Player.O; omega)
                  (by have := emptyCells_set_length hlen hx Player.O; omega)]
                exact hfx
            · rintro (h | ⟨x, hx, hfx⟩)
              · omega
              · refine Or.inr ⟨x, hx, ?_⟩
                rw [ih _ (d + 1) (d' + 1) false
                  (by rw [List.length_set]; exact hlen)
                  (emptyCells_child_le hlen hx _ h1)
                  (by have := emptyCells_set_length hlen hx Player.O; omega)
                  (by have := emptyCells_set_length hlen hx Player.O; omega)]
                exact hfx
          | false =>
            rw [minimax_succ_min hO hX hf, minimax_succ_min hO hX hf]
            rw [foldl_min_nonneg_iff, foldl_min_nonneg_iff]
            constructor
            · rintro ⟨h0, h⟩
              refine ⟨h0, fun x hx => ?_⟩
              rw [← ih _ (d + 1) (d' + 1) true
                (by rw [List.length_set]; exact hlen)
                (emptyCells_child_le hlen hx _ h1)
                (by have := emptyCells_set_length hlen hx Player.X; omega)
                (by have := emptyCells_set_length hlen hx Player.X; omega)]
              exact h x hx
            · rintro ⟨h0, h⟩
              refine ⟨h0, fun x hx => ?_⟩
              rw [ih _ (d + 1) (d' + 1) true
                (by rw [List.length_set]; exact hlen)
                (emptyCells_child_le hlen hx _ h1)
                (by have := emptyCells_set_length hlen hx Player.X; omega)
                (by have := emptyCells_set_length hlen hx Player.X; omega)]
              exact h x hx

/-- The minimax value never reaches the float('-inf') stand-in -1000. -/
theorem minimax_lower : ∀ (f : Nat) (b : Board) (d : Nat) (mx : Bool),
    b.length = 9 → (emptyCells b).length ≤ f → d + (emptyCells b).length ≤ 9 →
    -1000 < minimax f b d mx := by
  intro f
  induction f with
  | zero =>
    intro b d mx hlen h1 hd
    have hnil : emptyCells b = [] := List.length_eq_zero.mp (Nat.le_zero.mp h1)
    have hfull := (emptyCells_eq_nil_iff hlen).mp hnil
    by_cases hO : check_winner b Player.O = true
    · rw [minimax_winO hO]
      omega
    · rw [Bool.not_eq_true] at hO
      by_cases hX : check_winner b Player.X = true
      · rw [minimax_winX hO hX]
        omega
      · rw [Bool.not_eq_true] at hX
        rw [minimax_full hO hX hfull]
        omega
  | succ f ih =>
    intro b d mx hlen h1 hd
    by_cases hO : check_winner b Player.O = true
    · rw [minimax_winO hO]
      omega
    · rw [Bool.not_eq_true] at hO
      by_cases hX : check_winner b Player.X = true
      · rw [minimax_winX hO hX]
        omega
      · rw [Bool.not_eq_true] at hX
        by_cases hf : is_board_full b = true
        · rw [minimax_full hO hX hf]
          omega
        · rw [Bool.not_eq_true] at hf
          have hne : emptyCells b ≠ [] := by
            intro hc
            rw [(emptyCells_eq_nil_iff hlen).mp hc] at hf
            exact Bool.noConfusion hf
          obtain ⟨x, hx⟩ := List.exists_mem_of_ne_nil _ hne
          cases mx with
          | true =>
            rw [minimax_succ_max hO hX hf]
            have hch : -1000 < minimax f (b.set x (some Player.O)) (d + 1) false :=
              ih (b.set x (some Player.O)) (d + 1) false
                (by rw [List.length_set]; exact hlen)
                (emptyCells_child_le hlen hx _ h1)
                (by have := emptyCells_set_length hlen hx Player.O; omega)
            have hch2 : minimax f (b.set x (some Player.O)) (d + 1) false ≤
                (emptyCells b).foldl (fun best pos =>
                  max best (minimax f (b.set pos (some Player.O)) (d + 1) false))
                  (-1000) :=
              mem_le_foldl_max _ hx _
            omega
          | false =>
            rw [minimax_succ_min hO hX hf]
            have hlow : (-999 : Int) ≤
                (emptyCells b).foldl (fun best pos =>
                  min best (minimax f (b.set pos (some Player.X)) (d + 1) true))
                  1000 :=
              le_foldl_min
                (fun pos => minimax f (b.set pos (some Player.X)) (d + 1) true)
                (emptyCells b) 1000 (-999) (by omega)
                (fun q hq => by
                  show (-999 : Int) ≤ minimax f (b.set q (some Player.X)) (d + 1) true
                  have := ih (b.set q (some Player.X)) (d + 1) true
                    (by rw [List.length_set]; exact hlen)
                    (emptyCells_child_le hlen hq _ h1)
                    (by have := emptyCells_set_length hlen hq Player.X; omega)
                  omega)
            omega

/-- Soundness of the strategy certificate: a secure position has
non-negative minimax value for the side to move. -/
theorem secure_sound : ∀ (f : Nat) (b : Board) (d : Nat) (xturn : Bool),
    b.length = 9 → (emptyCells b).length ≤ f → d + (emptyCells b).length ≤ 9 →
    secure f b xturn = true → 0 ≤ minimax f b d (!xturn) := by
  intro f
  induction f with
  | zero =>
    intro b d xturn hlen h1 hd hsec
    have hnil : emptyCells b = [] := List.length_eq_zero.mp (Nat.le_zero.mp h1)
    have hfull := (emptyCells_eq_nil_iff hlen).mp hnil
    by_cases hO : check_winner b Player.O = true
    · rw [minimax_winO hO]
      omega
    · rw [Bool.not_eq_true] at hO
      by_cases hX : check_winner b Player.X = true
      · exfalso
        unfold secure at hsec
        rw [if_neg (by simp [hO]), if_pos hX] at hsec
        exact Bool.noConfusion hsec
      · rw [Bool.not_eq_true] at hX
        rw [minimax_full hO hX hfull]
  | succ f ih =>
    intro b d xturn hlen h1 hd hsec
    by_cases hO : check_winner b Player.O = true
    · rw [minimax_winO hO]
      omega
    · rw [Bool.not_eq_true] at hO
      by_cases hX : check_winner b Player.X = true
      · exfalso
        unfold secure at hsec
        rw [if_neg (by simp [hO]), if_pos hX] at hsec
        exact Bool.noConfusion hsec
      · rw [Bool.not_eq_true] at hX
        by_cases hfull : is_board_full b = true
        · rw [minimax_full hO hX hfull]
        · rw [Bool.not_eq_true] at hfull
          unfold secure at hsec
          rw [if_neg (by simp [hO]), if_neg (by simp [hX]),
            if_neg (by simp [hfull])] at hsec
          cases hxt : xturn with
          | true =>
            rw [hxt] at hsec
            simp only [if_true] at hsec
            rw [List.all_eq_true] at hsec
            show 0 ≤ minimax (f + 1) b d false
            rw [minimax_succ_min hO hX hfull, foldl_min_nonneg_iff]
            refine ⟨by omega, fun q hq => ?_⟩
            have := ih (b.set q (some Player.X)) (d + 1) false
              (by rw [List.length_set]; exact hlen)
              (emptyCells_child_le hlen hq _ h1)
              (by have := emptyCells_set_length hlen hq Player.X; omega)
              (hsec q hq)
            simpa using this
          | false =>
            rw [hxt] at hsec
            simp only [Bool.false_eq_true, if_false, Bool.and_eq_true] at hsec
            obtain ⟨hpmem, hpsec⟩ := hsec
            have hp : sigma b ∈ emptyCells b := by
              rw [← List.elem_iff]
              exact hpmem
            show 0 ≤ minimax (f + 1) b d true
            rw [minimax_succ_max hO hX hfull]
            have hch : 0 ≤ minimax f (b.set (sigma b) (some Player.O)) (d + 1) false := by
              have := ih (b.set (sigma b) (some Player.O)) (d + 1) true
                (by rw [List.length_set]; exact hlen)
                (emptyCells_child_le hlen hp _ h1)
                (by have := emptyCells_set_length hlen hp Player.O; omega)
                hpsec
              simpa using this
            have hle : minimax f (b.set (sigma b) (some Player.O)) (d + 1) false ≤
                (emptyCells b).foldl (fun best pos =>
                  max best (minimax f (b.set pos (some Player.O)) (d + 1) false))
                  (-1000) :=
              mem_le_foldl_max _ hp _
            omega

/-- Invariant of the strict-improvement argmax fold used by get_hard_move. -/
theorem foldl_argmax (f : Nat → Int) :
    ∀ (l : List Nat) (s : Int) (m : Nat),
      (let r := l.foldl (fun (acc : Int × Nat) pos =>
        if f pos > acc.1 then (f pos, pos) else acc) (s, m)
      (r.1 = s ∧ r.2 = m ∧ ∀ x ∈ l, f x ≤ s) ∨
        (r.1 = f r.2 ∧ r.2 ∈ l ∧ s < r.1 ∧ ∀ x ∈ l, f x ≤ r.1)) := by
  intro l
  induction l with
  | nil =>
    intro s m
    exact Or.inl ⟨rfl, rfl, by simp⟩
  | cons a t ih =>
    intro s m
    rw [List.foldl_cons]
    by_cases ha : f a > s
    · rw [if_pos ha]
      rcases ih (f a) a with ⟨h1, h2, h3⟩ | ⟨h1, h2, h3, h4⟩
      · refine Or.inr ⟨by rw [h1, h2], by rw [h2]; exact List.mem_cons_self a t,
          by omega, ?_⟩
        intro x hx
        rcases List.mem_cons.mp hx with rfl | hx
        · omega
        · have := h3 x hx
          omega
      · refine Or.inr ⟨h1, List.mem_cons_of_mem _ h2, by omega, ?_⟩
        intro x hx
        rcases List.mem_cons.mp hx with rfl | hx
        · omega
        · exact h4 x hx
    · rw [if_neg ha]
      rcases ih s m with ⟨h1, h2, h3⟩ | ⟨h1, h2, h3, h4⟩
      · refine Or.inl ⟨h1, h2, ?_⟩
        intro x hx
        rcases List.mem_cons.mp hx with rfl | hx
        · omega
        · exact h3 x hx
      · refine Or.inr ⟨h1, List.mem_cons_of_mem _ h2, h3, ?_⟩
        intro x hx
        rcases List.mem_cons.mp hx with rfl | hx
        · omega
        · exact h4 x hx

/-- get_hard_move returns a currently empty cell whose minimax score is
maximal among all empty cells (first occurrence on ties). -/
theorem get_hard_move_spec {b : Board} {m : Nat}
    (hlb : ∀ x ∈ emptyCells b,
      -1000 < minimax 9 (b.set x (some Player.O)) 0 false)
    (h : get_hard_move b = some m) :
    m ∈ emptyCells b ∧ ∀ q ∈ emptyCells b,
      minimax 9 (b.set q (some Player.O)) 0 false ≤
        minimax 9 (b.set m (some Player.O)) 0 false := by
  unfold get_hard_move at h
  cases hec : emptyCells b with
  | nil =>
    rw [hec] at h
    exact Option.noConfusion h
  | cons e0 rest =>
    rw [hec] at h
    dsimp only at h
    have hm : ((e0 :: rest).foldl (fun (acc : Int × Nat) pos =>
        if minimax 9 (b.set pos (some Player.O)) 0 false > acc.1
        then (minimax 9 (b.set pos (some Player.O)) 0 false, pos) else acc)
        (-1000, e0)).2 = m := Option.some.inj h
    have hfold := foldl_argmax
      (fun pos => minimax 9 (b.set pos (some Player.O)) 0 false)
      (e0 :: rest) (-1000) e0
    rw [hec] at hlb
    rcases hfold with ⟨_h1, _h2, h3⟩ | ⟨h1, h2, _h3, h4⟩
    · exfalso
      have hgt := hlb e0 (List.mem_cons_self e0 rest)
      have hle := h3 e0 (List.mem_cons_self e0 rest)
      omega
    · rw [hm] at h2 h1
      refine ⟨h2, fun q hq => ?_⟩
      have := h4 q hq
      omega

set_option maxHeartbeats 4000000 in
/-- The strategy sigma secures the empty board against every X playout:
a 945-line game-tree check, evaluated by the kernel. -/
theorem secure_init : secure 9 (List.replicate 9 none) true = true := by decide

theorem hardInv_init : HardInv Game.reset := by
  refine ⟨by decide, Or.inr rfl, fun _ => ⟨by decide, by decide, by decide,
    fun _ => ?_, fun hc => absurd hc (by decide)⟩⟩
  have h := secure_sound 9 (List.replicate 9 none) 0 true (by decide) (by decide)
    (by decide) secure_init
  exact h

theorem hardInv_stepX {g : Game} {position : Int} (hInv : HardInv g)
    (hcur : g.current_player = Player.X) (hv : g.is_valid_move position = true) :
    HardInv (g.make_move position).2 := by
  obtain ⟨hlen, hwin, hrun⟩ := hInv
  obtain ⟨hgo, hlt9, hcell⟩ := valid_move_fields hv
  obtain ⟨hnX, hnO, hnF, hvalX, _⟩ := hrun hgo
  have hval := hvalX hcur
  have hpmem : position.toNat ∈ emptyCells g.board :=
    mem_emptyCells_iff.mpr ⟨hlt9, hcell⟩
  have hrec : minimax 9 g.board 0 false =
      (emptyCells g.board).foldl (fun best pos =>
        min best (minimax 8 (g.board.set pos (some Player.X)) 1 true)) 1000 :=
    minimax_succ_min hnO hnX hnF
  have hch : 0 ≤ minimax 8 (g.board.set position.toNat (some Player.X)) 1 true := by
    rw [hrec] at hval
    have hle : (emptyCells g.board).foldl (fun best pos =>
        min best (minimax 8 (g.board.set pos (some Player.X)) 1 true)) 1000 ≤
        minimax 8 (g.board.set position.toNat (some Player.X)) 1 true :=
      foldl_min_le_mem _ hpmem _
    omega
  have hlen' : (g.board.set position.toNat (some Player.X)).length = 9 := by
    rw [List.length_set]
    exact hlen
  have hnO' : check_winner (g.board.set position.toNat (some Player.X))
      Player.O = false := by
    rw [check_winner_set_ne (by simp) hcell]
    exact hnO
  have hnX' : check_winner (g.board.set position.toNat (some Player.X))
      Player.X = false := by
    cases hXw : check_winner (g.board.set position.toNat (some Player.X))
        Player.X with
    | false => rfl
    | true =>
      have hv9 := @minimax_winX 8 (g.board.set position.toNat (some Player.X))
        1 true hnO' hXw
      rw [hv9] at hch
      omega
  have hecount := emptyCells_set_length hlen hpmem Player.X
  have he9 := length_emptyCells_le g.board
  have hval9 : 0 ≤ minimax 9 (g.board.set position.toNat (some Player.X)) 0 true := by
    have hf8 := minimax_fuel_eq 8 9 (g.board.set position.toNat (some Player.X))
      1 true hlen' (by omega) (by omega)
    have hsg := minimax_sign 9 (g.board.set position.toNat (some Player.X))
      1 0 true hlen' (by omega) (by omega) (by omega)
    rw [hf8] at hch
    exact hsg.mp hch
  unfold Game.make_move
  rw [hv, hcur]
  simp only [Bool.not_true, Bool.false_eq_true, if_false]
  rw [if_neg (by rw [hnX']; exact Bool.noConfusion)]
  by_cases hfull' : is_board_full (g.board.set position.toNat (some Player.X)) = true
  · rw [if_pos hfull']
    exact ⟨hlen', Or.inr rfl, fun hc => Bool.noConfusion hc⟩
  · rw [if_neg hfull']
    rw [Bool.not_eq_true] at hfull'
    refine ⟨hlen', hwin, fun _ => ⟨hnX', hnO', hfull', fun hc => ?_, fun _ => hval9⟩⟩
    dsimp only [switch] at hc
    exact absurd hc (by decide)

theorem hardInv_stepO {g : Game} {pos : Nat} (hInv : HardInv g)
    (hcur : g.current_player = Player.O) (hm : get_hard_move g.board = some pos) :
    HardInv (g.make_move (pos : Int)).2 := by
  obtain ⟨hlen, hwin, hrun⟩ := hInv
  by_cases hgo : g.game_over = true
  · have hval : g.is_valid_move (pos : Int) = false := by
      unfold Game.is_valid_move
      rw [hgo]
      rfl
    unfold Game.make_move
    rw [hval]
    exact ⟨hlen, hwin, hrun⟩
  · rw [Bool.not_eq_true] at hgo
    obtain ⟨hnX, hnO, hnF, _, hvalO⟩ := hrun hgo
    have hval := hvalO hcur
    have hlb : ∀ x ∈ emptyCells g.board,
        -1000 < minimax 9 (g.board.set x (some Player.O)) 0 false := by
      intro x hx
      have he' := length_emptyCells_le (g.board.set x (some Player.O))
      exact minimax_lower 9 _ 0 false (by rw [List.length_set]; exact hlen)
        (by omega) (by omega)
    obtain ⟨hmmem, hmax⟩ := get_hard_move_spec hlb hm
    have hrec : minimax 9 g.board 0 true =
        (emptyCells g.board).foldl (fun best p =>
          max best (minimax 8 (g.board.set p (some Player.O)) 1 false)) (-1000) :=
      minimax_succ_max hnO hnX hnF
    rw [hrec, foldl_max_nonneg_iff] at hval
    rcases hval with hbad | ⟨q, hq, hq0⟩
    · omega
    · have he9 := length_emptyCells_le g.board
      have heq := emptyCells_set_length hlen hq Player.O
      have hq9 : 0 ≤ minimax 9 (g.board.set q (some Player.O)) 0 false := by
        have hf8 := minimax_fuel_eq 8 9 (g.board.set q (some Player.O)) 1 false
          (by rw [List.length_set]; exact hlen) (by omega) (by omega)
        have hsg := minimax_sign 9 (g.board.set q (some Player.O)) 1 0 false
          (by rw [List.length_set]; exact hlen) (by omega) (by omega) (by omega)
        rw [hf8] at hq0
        exact hsg.mp hq0
      have hm0 : 0 ≤ minimax 9 (g.board.set pos (some Player.O)) 0 false :=
        le_trans hq9 (hmax q hq)
      have hpos9 := (mem_emptyCells_iff.mp hmmem).1
      have hcell := (mem_emptyCells_iff.mp hmmem).2
      have htn : ((pos : Int)).toNat = pos := Int.toNat_natCast pos
      have hvalid : g.is_valid_move (pos : Int) = true := by
        unfold Game.is_valid_move
        rw [hgo, htn]
        simp only [Bool.not_false, Bool.true_and, Bool.and_eq_true,
          decide_eq_true_eq, beq_iff_eq]
        refine ⟨⟨by omega, by omega⟩, hcell⟩
      have hnX' : check_winner (g.board.set pos (some Player.O)) Player.X = false := by
        rw [check_winner_set_ne (by simp) hcell]
        exact hnX
      unfold Game.make_move
      rw [hvalid, hcur, htn]
      simp only [Bool.not_true, Bool.false_eq_true, if_false]
      by_cases hwO : check_winner (g.board.set pos (some Player.O)) Player.O = true
      · rw [if_pos hwO]
        exact ⟨by rw [List.length_set]; exact hlen, Or.inl rfl,
          fun hc => Bool.noConfusion hc⟩
      · rw [if_neg hwO]
        rw [Bool.not_eq_true] at hwO
        by_cases hfull' : is_board_full (g.board.set pos (some Player.O)) = true
        · rw [if_pos hfull']
          exact ⟨by rw [List.length_set]; exact hlen, Or.inr rfl,
            fun hc => Bool.noConfusion hc⟩
        · rw [if_neg hfull']
          rw [Bool.not_eq_true] at hfull'
          refine ⟨by rw [List.length_set]; exact hlen, hwin,
            fun _ => ⟨hnX', hwO, hfull', fun _ => hm0, fun hc => ?_⟩⟩
          dsimp only [switch] at hc
          exact absurd hc (by decide)

theorem hardInv_reachable {g : Game} (h : HardReachable g) : HardInv g := by
  induction h with
  | init => exact hardInv_init
  | stepX position _ hcur hv ih => exact hardInv_stepX ih hcur hv
  | stepO pos _ hcur hm ih => exact hardInv_stepO ih hcur hm

/-- C3: in every playout of the standard game where X plays arbitrary valid
moves and every O move is the index returned by get_hard_move, every
reachable state — terminal ones included — has winner O or no winner; the
state winner = X is never reached. -/
theorem C3_hard_ai_never_loses (g : Game) (h : HardReachable g) :
    g.winner = some Player.O ∨ g.winner = none :=
  (hardInv_reachable h).2.1

theorem C3_hard_ai_never_loses_witness :
    (Game.reset.make_move 0).2.winner = some Player.O ∨
      (Game.reset.make_move 0).2.winner = none :=
  C3_hard_ai_never_loses (Game.reset.make_move 0).2
    (HardReachable.stepX 0 HardReachable.init (by decide) (by decide))

end TicTacToe
